import Mathlib

/-!
# Product update service: queue, worker pool and in-memory store

A shallow embedding of the Go packages `internal/domain`, `internal/repository`,
`internal/queue`, `internal/worker` and of `ProductHandler.CreateEvent`.

Conventions of the embedding:

* a Go pointer to a `Product` is `Ptr`: `none` is `nil`, `some a` is the address of
  cell `a` of the `Heap`; `&Product{...}` allocates a fresh cell at the end of the heap;
* a run-time panic (nil dereference, send on a closed channel) is the result `none`
  of an `Option`-valued operation, or `Outcome.panicked` for channel operations;
* each repository method runs under the repository's mutex, so it is one atomic
  state change; logging is not modelled;
* `float64` is its IEEE-754 bit pattern, `int` is an integer, `time.Time` is its
  three words.
-/

namespace Vfc

/-! ## Scalar types -/

/-- IEEE-754 binary64 value of a Go `float64`, held as its bit pattern. -/
structure Float64 where
  bits : Nat
deriving DecidableEq, Repr

/-- Sign bit of the pattern. -/
def Float64.sign (f : Float64) : Nat := f.bits / 2 ^ 63 % 2

/-- Biased exponent field (11 bits). -/
def Float64.exponent (f : Float64) : Nat := f.bits / 2 ^ 52 % 2 ^ 11

/-- Fraction field (52 bits). -/
def Float64.fraction (f : Float64) : Nat := f.bits % 2 ^ 52

/-- Not-a-number: all exponent bits set and a non-zero fraction. -/
def Float64.isNaN (f : Float64) : Bool := f.exponent == 2047 && f.fraction != 0

/-- Positive or negative zero. -/
def Float64.isZero (f : Float64) : Bool := f.exponent == 0 && f.fraction == 0

/-- Go comparison `f < 0` on `float64`: the sign is set and `f` is neither a NaN
nor negative zero. -/
def Float64.ltZero (f : Float64) : Bool := f.sign == 1 && !f.isNaN && !f.isZero

/-- Value of a Go `time.Time`: wall word, monotonic/extended word, location pointer. -/
structure Time where
  wall : Nat
  ext : Int
  loc : Option Nat
deriving DecidableEq, Repr

/-! ## `internal/domain` -/

/-- `domain.Product`. -/
structure Product where
  ProductID : String
  Price : Float64
  Stock : Int
  UpdatedAt : Time
deriving DecidableEq, Repr

/-- `domain.Event`. -/
structure Event where
  ProductID : String
  Price : Float64
  Stock : Int
  Timestamp : Time
deriving DecidableEq, Repr

/-- `domain.NewEvent`; `now` is the reading of `time.Now()`. -/
def NewEvent (now : Time) (productID : String) (price : Float64) (stock : Int) : Event :=
  { ProductID := productID, Price := price, Stock := stock, Timestamp := now }

/-- `domain.NewProduct`; `now` is the reading of `time.Now()`. -/
def NewProduct (now : Time) (productID : String) (price : Float64) (stock : Int) : Product :=
  { ProductID := productID, Price := price, Stock := stock, UpdatedAt := now }

/-- The composite literal built by `Event.ToProduct`. -/
def Event.ToProduct (e : Event) : Product :=
  { ProductID := e.ProductID, Price := e.Price, Stock := e.Stock, UpdatedAt := e.Timestamp }

/-! ## Memory: pointers to products -/

/-- A Go `*domain.Product`: `none` is `nil`. -/
abbrev Ptr := Option Nat

/-- The products allocated so far; the address of a product is its index. -/
abbrev Heap := List Product

/-- Read through a pointer; `none` is the nil-dereference panic. -/
def Heap.deref (h : Heap) : Ptr → Option Product
  | none => none
  | some a => h[a]?

/-- Allocation `&domain.Product{...}`: a fresh cell, and its address. -/
def Heap.alloc (h : Heap) (p : Product) : Heap × Ptr := (h ++ [p], some h.length)

/-- Assignment `*ptr = p` (any sequence of field writes through `ptr`). -/
def Heap.write (h : Heap) (ptr : Ptr) (p : Product) : Option Heap :=
  match ptr with
  | none => none
  | some a => if a < h.length then some (h.set a p) else none

/-! ## Go maps `map[string]*domain.Product` -/

/-- A Go map as an association list; a well-formed map has no repeated key. -/
abbrev GoMap := List (String × Ptr)

/-- Map read `v, exists := m[key]`. -/
def GoMap.find : GoMap → String → Option Ptr
  | [], _ => none
  | (k, v) :: m, key => if k = key then some v else GoMap.find m key

/-- Map write `m[key] = v`: replaces the entry of `key`, or adds one. -/
def GoMap.set : GoMap → String → Ptr → GoMap
  | [], key, v => [(key, v)]
  | (k, x) :: m, key, v => if k = key then (k, v) :: m else (k, x) :: GoMap.set m key v

/-- The builtin `delete(m, key)`. -/
def GoMap.delete : GoMap → String → GoMap
  | [], _ => []
  | (k, x) :: m, key => if k = key then GoMap.delete m key else (k, x) :: GoMap.delete m key

/-- The keys of the map. -/
def GoMap.keys (m : GoMap) : List String := m.map Prod.fst

/-! ## `internal/repository` -/

/-- Go `error` values returned by the repository. -/
inductive GoError where
  | ErrProductNotFound
deriving DecidableEq, Repr

/-- `repository.InMemoryRepository` (the mutex is implicit: methods are atomic). -/
structure InMemoryRepository where
  products : GoMap
deriving DecidableEq, Repr

/-- `repository.NewInMemoryRepository`. -/
def NewInMemoryRepository : InMemoryRepository := { products := [] }

/-- `InMemoryRepository.Save`: reads `product.ProductID` through the pointer and
stores the pointer itself under that key. -/
def InMemoryRepository.Save (r : InMemoryRepository) (h : Heap) (product : Ptr) :
    Option (InMemoryRepository × Option GoError) :=
  match h.deref product with
  | none => none
  | some p => some ({ products := r.products.set p.ProductID product }, none)

/-- `InMemoryRepository.Get`: on a hit, allocates a new product with the four
fields of the stored one and returns its address. -/
def InMemoryRepository.Get (r : InMemoryRepository) (h : Heap) (productID : String) :
    Option (Heap × Ptr × Option GoError) :=
  match r.products.find productID with
  | none => some (h, none, some GoError.ErrProductNotFound)
  | some product =>
    match h.deref product with
    | none => none
    | some p =>
      let (h1, q) := h.alloc
        { ProductID := p.ProductID, Price := p.Price, Stock := p.Stock,
          UpdatedAt := p.UpdatedAt }
      some (h1, q, none)

/-- `InMemoryRepository.Delete`. -/
def InMemoryRepository.Delete (r : InMemoryRepository) (productID : String) :
    InMemoryRepository × Option GoError :=
  ({ products := r.products.delete productID }, none)

/-- `InMemoryRepository.Close`. -/
def InMemoryRepository.Close (_r : InMemoryRepository) : Option GoError := none

/-- `InMemoryRepository.Count`. -/
def InMemoryRepository.Count (r : InMemoryRepository) : Int := r.products.length

/-- Well-formed memory of a repository: the map has no repeated key and every stored
pointer is the address of an allocated product. -/
def InMemoryRepository.WF (r : InMemoryRepository) (h : Heap) : Prop :=
  r.products.keys.Nodup ∧ ∀ kv ∈ r.products, (h.deref kv.2).isSome = true

instance (r : InMemoryRepository) (h : Heap) : Decidable (r.WF h) := by
  unfold InMemoryRepository.WF
  exact inferInstance

/-! ## `internal/queue` -/

/-- How a call that may block ends: it returns, it stays blocked in the current
state, or it panics. -/
inductive Outcome (α : Type) where
  | returned (a : α)
  | blocked
  | panicked
deriving DecidableEq, Repr

/-- A Go `chan *domain.Event`: buffered elements oldest first, capacity, closed flag.
An element is an event pointer: `none` is `nil`, `some e` points to the event `e`
(events are never written after `NewEvent`). -/
structure Chan where
  buf : List (Option Event)
  cap : Nat
  closed : Bool
deriving DecidableEq, Repr

/-- Channel send `c <- v` with no receiver waiting. -/
def Chan.send (c : Chan) (v : Option Event) : Outcome Chan :=
  if c.closed then Outcome.panicked
  else if c.buf.length < c.cap then Outcome.returned { c with buf := c.buf ++ [v] }
  else Outcome.blocked

/-- Channel receive `v, ok := <-c`. -/
def Chan.recv (c : Chan) : Outcome ((Option Event × Bool) × Chan) :=
  match c.buf with
  | v :: rest => Outcome.returned ((v, true), { c with buf := rest })
  | [] => if c.closed then Outcome.returned ((none, false), c) else Outcome.blocked

/-- The builtin `close(c)`. -/
def Chan.close (c : Chan) : Outcome Chan :=
  if c.closed then Outcome.panicked else Outcome.returned { c with closed := true }

/-- `queue.InMemoryQueue`. -/
structure InMemoryQueue where
  queue : Chan
deriving DecidableEq, Repr

/-- `queue.NewInMemoryQueue`: `make(chan *domain.Event, bufferSize)`, for a buffer size
that `make` accepts (a negative one panics). -/
def NewInMemoryQueue (bufferSize : Nat) : InMemoryQueue :=
  { queue := { buf := [], cap := bufferSize, closed := false } }

/-- `InMemoryQueue.Connect`. -/
def InMemoryQueue.Connect (_q : InMemoryQueue) : Option GoError := none

/-- `InMemoryQueue.Close`. -/
def InMemoryQueue.Close (q : InMemoryQueue) : Outcome (InMemoryQueue × Option GoError) :=
  match q.queue.close with
  | Outcome.returned c => Outcome.returned ({ queue := c }, none)
  | Outcome.blocked => Outcome.blocked
  | Outcome.panicked => Outcome.panicked

/-- `InMemoryQueue.Enqueue`. -/
def InMemoryQueue.Enqueue (q : InMemoryQueue) (event : Option Event) :
    Outcome (InMemoryQueue × Option GoError) :=
  match q.queue.send event with
  | Outcome.returned c => Outcome.returned ({ queue := c }, none)
  | Outcome.blocked => Outcome.blocked
  | Outcome.panicked => Outcome.panicked

/-- `InMemoryQueue.Dequeue`: `event := <-q.queue; return event, nil`. -/
def InMemoryQueue.Dequeue (q : InMemoryQueue) :
    Outcome (InMemoryQueue × Option Event × Option GoError) :=
  match q.queue.recv with
  | Outcome.returned ((event, _), c) => Outcome.returned ({ queue := c }, event, none)
  | Outcome.blocked => Outcome.blocked
  | Outcome.panicked => Outcome.panicked

/-- `InMemoryQueue.GetChannel`. -/
def InMemoryQueue.GetChannel (q : InMemoryQueue) : Chan := q.queue

/-- Calls `Enqueue` for each event in turn; stops at the first call that does not
return. -/
def InMemoryQueue.enqueueAll (q : InMemoryQueue) : List (Option Event) → Outcome InMemoryQueue
  | [] => Outcome.returned q
  | e :: es =>
    match q.Enqueue e with
    | Outcome.returned (q1, _) => InMemoryQueue.enqueueAll q1 es
    | Outcome.blocked => Outcome.blocked
    | Outcome.panicked => Outcome.panicked

/-- Calls `Dequeue` `n` times in a row and collects the events returned. -/
def InMemoryQueue.dequeueN (q : InMemoryQueue) :
    Nat → Outcome (InMemoryQueue × List (Option Event))
  | 0 => Outcome.returned (q, [])
  | n + 1 =>
    match q.Dequeue with
    | Outcome.returned (q1, event, _) =>
      match InMemoryQueue.dequeueN q1 n with
      | Outcome.returned (q2, events) => Outcome.returned (q2, event :: events)
      | Outcome.blocked => Outcome.blocked
      | Outcome.panicked => Outcome.panicked
    | Outcome.blocked => Outcome.blocked
    | Outcome.panicked => Outcome.panicked

/-! ## `internal/service` and `internal/handler` -/

/-- `ProductService.EnqueueProductUpdate`, on the service's queue. -/
def EnqueueProductUpdate (q : InMemoryQueue) (event : Option Event) :
    Outcome (InMemoryQueue × Option GoError) :=
  q.Enqueue event

/-- `handler.EventRequest`. -/
structure EventRequest where
  ProductID : String
  Price : Float64
  Stock : Int
deriving DecidableEq, Repr

/-- What the handler writes: the status code and, for `sendError`, the message of the
`ErrorResponse`. -/
structure Response where
  status : Nat
  error : Option String
deriving DecidableEq, Repr

/-- `ProductHandler.CreateEvent`. `body` is the result of decoding the request body
(`none` when `Decode` fails), `now` the clock reading taken by `NewEvent`, `q` the
queue of the handler's service. -/
def CreateEvent (q : InMemoryQueue) (now : Time) (body : Option EventRequest) :
    Outcome (Response × InMemoryQueue) :=
  match body with
  | none => Outcome.returned ({ status := 400, error := some "Invalid request body" }, q)
  | some req =>
    if req.ProductID = "" then
      Outcome.returned ({ status := 400, error := some "product_id is required" }, q)
    else if req.Price.ltZero then
      Outcome.returned ({ status := 400, error := some "price must be non-negative" }, q)
    else if req.Stock < 0 then
      Outcome.returned ({ status := 400, error := some "stock must be non-negative" }, q)
    else
      let event := NewEvent now req.ProductID req.Price req.Stock
      match EnqueueProductUpdate q (some event) with
      | Outcome.returned (q1, some _) =>
        Outcome.returned ({ status := 500, error := some "Failed to enqueue event" }, q1)
      | Outcome.returned (q1, none) => Outcome.returned ({ status := 202, error := none }, q1)
      | Outcome.blocked => Outcome.blocked
      | Outcome.panicked => Outcome.panicked

/-! ## `internal/worker` -/

/-- Where a worker goroutine stands: at its `select`, holding a dequeued event that
`processEvent` has not yet saved, or returned (its deferred `wg.Done()` has run). -/
inductive WorkerState where
  | idle
  | processing (event : Event)
  | exited
deriving DecidableEq, Repr

/-- Progress of the call of `Pool.Stop`: not called, past `p.cancel()` and inside
`p.wg.Wait()`, or returned. -/
inductive StopPhase where
  | notCalled
  | waiting
  | returned
deriving DecidableEq, Repr

/-- `worker.Pool` together with the memory it works on: the queue and repository it
points to, the heap, the wait-group counter, whether `ctx` is cancelled, and the
goroutines spawned by `Start` so far (worker `i + 1` is entry `i`). -/
structure Pool where
  workerCount : Int
  queue : InMemoryQueue
  repo : InMemoryRepository
  heap : Heap
  wg : Int
  cancelled : Bool
  workers : List WorkerState
  stop : StopPhase
deriving DecidableEq, Repr

/-- `worker.NewPool`, given the queue, the repository and the current heap. -/
def NewPool (workerCount : Int) (queue : InMemoryQueue) (repo : InMemoryRepository)
    (heap : Heap) : Pool :=
  { workerCount := workerCount, queue := queue, repo := repo, heap := heap, wg := 0,
    cancelled := false, workers := [], stop := StopPhase.notCalled }

/-- `sync.WaitGroup.Done`: decrements the counter; a negative counter panics. -/
def WaitGroup.Done (n : Int) : Option Int := if n - 1 < 0 then none else some (n - 1)

/-- `Pool.processEvent` on a non-nil event: `product := event.ToProduct()` allocates
the product, `p.repo.Save(product)` stores it; the returned error is only logged. -/
def Pool.processEvent (repo : InMemoryRepository) (heap : Heap) (event : Event) :
    Option (InMemoryRepository × Heap) :=
  let (h1, product) := heap.alloc event.ToProduct
  match repo.Save h1 product with
  | none => none
  | some (r1, _) => some (r1, h1)

/-- The atomic steps of the pool and of its environment. -/
inductive Action where
  /-- One iteration of the loop of `Pool.Start`: `p.wg.Add(1); go p.worker(i + 1)`. -/
  | spawn
  /-- Worker `i` takes the case `event, ok := <-eventChan` of its `select`. -/
  | recv (i : Nat)
  /-- Worker `i` takes the case `<-p.ctx.Done()` of its `select`. -/
  | done (i : Nat)
  /-- Worker `i` runs `p.processEvent` on the event it holds. -/
  | process (i : Nat)
  /-- A producer's `Enqueue(event)` completes into the buffer. -/
  | enqueue (event : Option Event)
  /-- A producer's `Enqueue(event)` completes by handing the event to worker `i`,
  which waits at its `select` on the empty channel. -/
  | handoff (i : Nat) (event : Option Event)
  /-- The call `Queue.Close()`. -/
  | close
  /-- `Pool.Stop` runs `p.cancel()` and enters `p.wg.Wait()`. -/
  | cancel
  /-- The `p.wg.Wait()` of `Pool.Stop` returns. -/
  | wait
deriving DecidableEq, Repr

/-- Worker `i` returns from `Pool.worker`; the deferred `p.wg.Done()` runs. -/
def Pool.exitWorker (p : Pool) (i : Nat) : Option Pool :=
  match WaitGroup.Done p.wg with
  | none => none
  | some n => some { p with wg := n, workers := p.workers.set i WorkerState.exited }

/-- What worker `i` does with a received pointer: `nil` is skipped (`continue`), any
other event is held for `processEvent`. -/
def Pool.accept (p : Pool) (i : Nat) (event : Option Event) : Pool :=
  match event with
  | none => p
  | some e => { p with workers := p.workers.set i (WorkerState.processing e) }

/-- One atomic step; `none` when the step cannot be taken in this state (the call
is blocked or not at that point) or panics. -/
def Pool.step (p : Pool) : Action → Option Pool
  | Action.spawn =>
    if (p.workers.length : Int) < p.workerCount then
      some { p with wg := p.wg + 1, workers := p.workers ++ [WorkerState.idle] }
    else none
  | Action.recv i =>
    match p.workers[i]? with
    | some WorkerState.idle =>
      match p.queue.GetChannel.recv with
      | Outcome.returned ((event, true), c) =>
        some (Pool.accept { p with queue := { queue := c } } i event)
      | Outcome.returned ((_, false), _) => p.exitWorker i
      | _ => none
    | _ => none
  | Action.done i =>
    match p.workers[i]? with
    | some WorkerState.idle => if p.cancelled then p.exitWorker i else none
    | _ => none
  | Action.process i =>
    match p.workers[i]? with
    | some (WorkerState.processing e) =>
      match Pool.processEvent p.repo p.heap e with
      | none => none
      | some (r1, h1) =>
        some { p with repo := r1, heap := h1, workers := p.workers.set i WorkerState.idle }
    | _ => none
  | Action.enqueue event =>
    match p.queue.Enqueue event with
    | Outcome.returned (q1, _) => some { p with queue := q1 }
    | _ => none
  | Action.handoff i event =>
    match p.workers[i]? with
    | some WorkerState.idle =>
      if p.queue.queue.closed = false ∧ p.queue.queue.buf = [] then
        some (Pool.accept p i event)
      else none
    | _ => none
  | Action.close =>
    match p.queue.Close with
    | Outcome.returned (q1, _) => some { p with queue := q1 }
    | _ => none
  | Action.cancel =>
    if p.stop = StopPhase.notCalled then
      some { p with cancelled := true, stop := StopPhase.waiting }
    else none
  | Action.wait =>
    if p.stop = StopPhase.waiting ∧ p.wg = 0 then some { p with stop := StopPhase.returned }
    else none

/-- Runs a schedule: the steps are taken one after the other. -/
def Pool.run (p : Pool) : List Action → Option Pool
  | [] => some p
  | a :: as =>
    match p.step a with
    | none => none
    | some p1 => Pool.run p1 as

/-- The event pointers passed to `Enqueue` along a schedule, in order. -/
def enqueued : List Action → List (Option Event)
  | [] => []
  | Action.enqueue event :: as => event :: enqueued as
  | Action.handoff _ event :: as => event :: enqueued as
  | _ :: as => enqueued as

/-- Whether the worker has not returned yet. -/
def WorkerState.running : WorkerState → Bool
  | WorkerState.exited => false
  | _ => true

/-- The event a worker has dequeued and not yet saved, if any. -/
def WorkerState.inflight : WorkerState → Option Event
  | WorkerState.processing e => some e
  | _ => none

/-- Number of spawned workers that have not exited. -/
def Pool.running (p : Pool) : Nat := p.workers.countP WorkerState.running

/-- Fully drained: nothing is buffered and no worker holds a dequeued event. -/
def Pool.drained (p : Pool) : Prop :=
  p.queue.queue.buf = [] ∧ ∀ w ∈ p.workers, w.inflight = none

instance (p : Pool) : Decidable p.drained := by
  unfold Pool.drained
  exact inferInstance

/-- The last event of the sequence that carries the product id, if there is one. -/
def lastFor (es : List Event) (id : String) : Option Event :=
  (es.filter (fun e => e.ProductID = id)).getLast?

/-- The events held by workers, in worker order. -/
def Pool.inflight (p : Pool) : List Event := p.workers.filterMap WorkerState.inflight

/-- The events behind the non-nil pointers of a sequence. -/
def nonNil (l : List (Option Event)) : List Event := l.filterMap id

/-- The event pointer a step passes to `Enqueue`, if it is such a step. -/
def Action.enqueues : Action → List (Option Event)
  | Action.enqueue event => [event]
  | Action.handoff _ event => [event]
  | _ => []

/-- What the store shows under an id: the product its stored pointer points to. -/
def InMemoryRepository.view (r : InMemoryRepository) (h : Heap) (id : String) :
    Option Product :=
  match r.products.find id with
  | none => none
  | some ptr => h.deref ptr

/-- The store reflects the events `applied`, saved one after the other in this order:
it is well formed and shows, under each id, the product of the last of them with
that id. -/
def InMemoryRepository.Reflects (r : InMemoryRepository) (h : Heap) (applied : List Event) :
    Prop :=
  r.WF h ∧ ∀ id, r.view h id = (lastFor applied id).map Event.ToProduct

/-- How a step acts on the queue, on the events held by workers and on the store. -/
inductive Pool.Effect (p : Pool) (a : Action) (p1 : Pool) : Prop where
  /-- Nothing moves: no event is enqueued, dequeued or saved. -/
  | silent (hrepo : p1.repo = p.repo) (hheap : p1.heap = p.heap)
      (hworkers : p1.inflight = p.inflight)
      (hbuf : nonNil p1.queue.queue.buf = nonNil p.queue.queue.buf)
      (henq : nonNil a.enqueues = [])
  /-- The event `e` enters the buffer at its tail. -/
  | buffered (e : Event) (hrepo : p1.repo = p.repo) (hheap : p1.heap = p.heap)
      (hworkers : p1.workers = p.workers)
      (hbuf : nonNil p1.queue.queue.buf = nonNil p.queue.queue.buf ++ [e])
      (henq : nonNil a.enqueues = [e])
  /-- The idle worker `i` takes the event `e` from the head of the buffer. -/
  | taken (i : Nat) (e : Event) (hrepo : p1.repo = p.repo) (hheap : p1.heap = p.heap)
      (hidle : p.workers[i]? = some WorkerState.idle)
      (hworkers : p1.workers = p.workers.set i (WorkerState.processing e))
      (hbuf : nonNil p.queue.queue.buf = e :: nonNil p1.queue.queue.buf)
      (henq : nonNil a.enqueues = [])
  /-- The idle worker `i` is handed the event `e` while the buffer is empty. -/
  | handed (i : Nat) (e : Event) (hrepo : p1.repo = p.repo) (hheap : p1.heap = p.heap)
      (hidle : p.workers[i]? = some WorkerState.idle)
      (hworkers : p1.workers = p.workers.set i (WorkerState.processing e))
      (hbuf : p.queue.queue.buf = []) (hbuf1 : p1.queue.queue.buf = [])
      (henq : nonNil a.enqueues = [e])
  /-- Worker `i` saves the event `e` it holds. -/
  | saved (i : Nat) (e : Event)
      (hproc : Pool.processEvent p.repo p.heap e = some (p1.repo, p1.heap))
      (hheld : p.workers[i]? = some (WorkerState.processing e))
      (hworkers : p1.workers = p.workers.set i WorkerState.idle)
      (hbuf : p1.queue.queue.buf = p.queue.queue.buf)
      (henq : nonNil a.enqueues = [])

/-- Invariant of a pool of at most one worker, `hist` being the non-nil events
enqueued so far: the store reflects a prefix of `hist`, and the rest of `hist` is the
event held by the worker, if any, followed by the buffered events. -/
def Pool.InvSeq (p : Pool) (hist : List Event) : Prop :=
  p.workerCount ≤ 1 ∧ p.workers.length ≤ 1 ∧
    ∃ applied, p.repo.Reflects p.heap applied ∧
      applied ++ p.inflight ++ nonNil p.queue.queue.buf = hist

/-- Invariant of any pool, `hist` being the non-nil events enqueued so far: the events
saved (in the order of their saves, which the store reflects), the events held by
workers and the buffered events are together a rearrangement of `hist`. -/
def Pool.InvPerm (p : Pool) (hist : List Event) : Prop :=
  ∃ applied, p.repo.Reflects p.heap applied ∧
    (applied ++ p.inflight ++ nonNil p.queue.queue.buf).Perm hist

/-- The state a schedule leads to (the initial state if it cannot be run). -/
def Pool.runD (p : Pool) (acts : List Action) : Pool := (p.run acts).getD p

/-- Sample events: `("p1", 1.0, 1)`, `("p1", 2.0, 2)` and `("p2", 3.0, 3)`. -/
def sampleA : Event := ⟨"p1", ⟨0x3FF0000000000000⟩, 1, ⟨5, 0, none⟩⟩

/-- See `sampleA`. -/
def sampleB : Event := ⟨"p1", ⟨0x4000000000000000⟩, 2, ⟨6, 0, none⟩⟩

/-- See `sampleA`. -/
def sampleC : Event := ⟨"p2", ⟨0x4008000000000000⟩, 3, ⟨7, 0, none⟩⟩

/-! ## Producers blocked in `Enqueue` -/

/-- A queue together with the calls of `Enqueue` that are blocked in the channel send
`q.queue <- event`, oldest first, each with the pointer it is sending. -/
structure Waiting where
  queue : InMemoryQueue
  senders : List (Option Event)
deriving DecidableEq, Repr

/-- A producer calls `Enqueue(event)`. When the send can proceed the call returns at
once; when it cannot, the producer joins the blocked senders and the call has not
returned; on a closed channel it panics. The second component is how the call stands
after this step. -/
def Waiting.Enqueue (w : Waiting) (event : Option Event) :
    Waiting × Outcome (Option GoError) :=
  match w.queue.Enqueue event with
  | Outcome.returned (q1, err) => ({ w with queue := q1 }, Outcome.returned err)
  | Outcome.blocked => ({ w with senders := w.senders ++ [event] }, Outcome.blocked)
  | Outcome.panicked => (w, Outcome.panicked)

/-- A consumer calls `Dequeue()`. With no sender blocked this is `InMemoryQueue.Dequeue`.
With a sender blocked: when the receive `<-q.queue` returns an element it leaves room in
the channel, so the send `q.queue <- event` of the oldest blocked producer proceeds and
its `Enqueue` ends as `InMemoryQueue.Enqueue` does on the channel left by the receive;
when the open channel holds nothing (a channel without buffer) the receive takes the
pointer of the oldest blocked producer directly and that `Enqueue` runs `return nil`.
The components are the state, how `Dequeue` ends (event and error), and the calls of
`Enqueue` this receive ends, each with the pointer it was sending and how it ends. -/
def Waiting.Dequeue (w : Waiting) :
    Waiting × Outcome (Option Event × Option GoError) ×
      List (Option Event × Outcome (Option GoError)) :=
  match w.senders with
  | [] =>
    match w.queue.Dequeue with
    | Outcome.returned (q1, event, err) =>
      ({ w with queue := q1 }, Outcome.returned (event, err), [])
    | Outcome.blocked => (w, Outcome.blocked, [])
    | Outcome.panicked => (w, Outcome.panicked, [])
  | sent :: rest =>
    match w.queue.Dequeue with
    | Outcome.returned (q1, event, err) =>
      match q1.Enqueue sent with
      | Outcome.returned (q2, serr) =>
        ({ queue := q2, senders := rest }, Outcome.returned (event, err),
          [(sent, Outcome.returned serr)])
      | Outcome.blocked =>
        ({ queue := q1, senders := sent :: rest }, Outcome.returned (event, err), [])
      | Outcome.panicked =>
        ({ queue := q1, senders := rest }, Outcome.returned (event, err),
          [(sent, Outcome.panicked)])
    | Outcome.blocked =>
      ({ w with senders := rest }, Outcome.returned (sent, none),
        [(sent, Outcome.returned none)])
    | Outcome.panicked => (w, Outcome.panicked, [])

/-- Calls `Dequeue` `n` times in a row on a queue with blocked producers; collects the
events returned and the calls of `Enqueue` ended, in order. -/
def Waiting.dequeueN (w : Waiting) :
    Nat → Outcome (Waiting × List (Option Event) ×
      List (Option Event × Outcome (Option GoError)))
  | 0 => Outcome.returned (w, [], [])
  | n + 1 =>
    match w.Dequeue with
    | (w1, Outcome.returned (event, _), ended) =>
      match Waiting.dequeueN w1 n with
      | Outcome.returned (w2, events, ended2) =>
        Outcome.returned (w2, event :: events, ended ++ ended2)
      | Outcome.blocked => Outcome.blocked
      | Outcome.panicked => Outcome.panicked
    | (_, Outcome.blocked, _) => Outcome.blocked
    | (_, Outcome.panicked, _) => Outcome.panicked

/-! ## Maps and memory: basic facts -/

theorem GoMap.find_set_self (m : GoMap) (k : String) (v : Ptr) :
    GoMap.find (GoMap.set m k v) k = some v := by
  induction m with
  | nil => simp [GoMap.set, GoMap.find]
  | cons kv m ih =>
    obtain ⟨k0, x⟩ := kv
    by_cases hk : k0 = k
    · simp [GoMap.set, GoMap.find, hk]
    · simp [GoMap.set, GoMap.find, hk, ih]

theorem GoMap.find_set_ne (m : GoMap) (k k2 : String) (v : Ptr) (hne : k ≠ k2) :
    GoMap.find (GoMap.set m k v) k2 = GoMap.find m k2 := by
  induction m with
  | nil => simp [GoMap.set, GoMap.find, hne]
  | cons kv m ih =>
    obtain ⟨k0, x⟩ := kv
    by_cases hk : k0 = k
    · subst hk
      simp [GoMap.set, GoMap.find, hne]
    · by_cases hk2 : k0 = k2
      · subst hk2
        simp [GoMap.set, GoMap.find, hk]
      · simp [GoMap.set, GoMap.find, hk, hk2, ih]

theorem GoMap.find_eq_none_iff (m : GoMap) (k : String) :
    GoMap.find m k = none ↔ k ∉ GoMap.keys m := by
  induction m with
  | nil => simp [GoMap.find, GoMap.keys]
  | cons kv m ih =>
    obtain ⟨k0, x⟩ := kv
    by_cases hk : k0 = k
    · simp [GoMap.find, GoMap.keys, hk]
    · have hk2 : ¬ k = k0 := fun h => hk h.symm
      simpa [GoMap.find, GoMap.keys, hk, hk2] using ih

theorem GoMap.mem_of_find (m : GoMap) (k : String) (v : Ptr) (hf : GoMap.find m k = some v) :
    (k, v) ∈ m := by
  induction m with
  | nil => simp [GoMap.find] at hf
  | cons kv m ih =>
    obtain ⟨k0, x⟩ := kv
    by_cases hk : k0 = k
    · simp [GoMap.find, hk] at hf
      simp [hk, hf]
    · simp [GoMap.find, hk] at hf
      exact List.mem_cons_of_mem _ (ih hf)

theorem GoMap.mem_set (m : GoMap) (k : String) (v : Ptr) (kv : String × Ptr)
    (hmem : kv ∈ GoMap.set m k v) : kv = (k, v) ∨ kv ∈ m := by
  induction m with
  | nil => simpa [GoMap.set] using hmem
  | cons e m ih =>
    obtain ⟨k0, x⟩ := e
    by_cases hk : k0 = k
    · simp [GoMap.set, hk] at hmem
      rcases hmem with h1 | h1
      · exact Or.inl h1
      · exact Or.inr (List.mem_cons_of_mem _ h1)
    · simp [GoMap.set, hk] at hmem
      rcases hmem with h1 | h1
      · exact Or.inr (by simp [h1])
      · rcases ih h1 with h2 | h2
        · exact Or.inl h2
        · exact Or.inr (List.mem_cons_of_mem _ h2)

theorem GoMap.mem_keys_set (m : GoMap) (k : String) (v : Ptr) (k2 : String) :
    k2 ∈ GoMap.keys (GoMap.set m k v) ↔ k2 = k ∨ k2 ∈ GoMap.keys m := by
  induction m with
  | nil => simp [GoMap.set, GoMap.keys]
  | cons e m ih =>
    obtain ⟨k0, x⟩ := e
    by_cases hk : k0 = k
    · subst hk
      simp [GoMap.set, GoMap.keys]
    · simp only [GoMap.keys] at ih
      simp [GoMap.set, GoMap.keys, hk, ih]
      tauto

theorem GoMap.nodup_keys_set (m : GoMap) (k : String) (v : Ptr)
    (hnd : (GoMap.keys m).Nodup) : (GoMap.keys (GoMap.set m k v)).Nodup := by
  induction m with
  | nil => simp [GoMap.set, GoMap.keys]
  | cons e m ih =>
    obtain ⟨k0, x⟩ := e
    have hcons : k0 ∉ GoMap.keys m ∧ (GoMap.keys m).Nodup := by
      simpa [GoMap.keys] using hnd
    by_cases hk : k0 = k
    · simpa [GoMap.set, GoMap.keys, hk] using hnd
    · have hnot : k0 ∉ GoMap.keys (GoMap.set m k v) := by
        rw [GoMap.mem_keys_set]
        exact fun h => h.elim hk hcons.1
      have hrec := ih hcons.2
      simp only [GoMap.keys] at hnot hrec
      simp [GoMap.set, GoMap.keys, hk, hnot, hrec]

theorem Heap.deref_alloc_new (h : Heap) (p : Product) :
    Heap.deref (Heap.alloc h p).1 (Heap.alloc h p).2 = some p := by
  simp [Heap.alloc, Heap.deref]

theorem Heap.deref_append (h : Heap) (extra : List Product) (ptr : Ptr)
    (hv : (Heap.deref h ptr).isSome = true) :
    Heap.deref (h ++ extra) ptr = Heap.deref h ptr := by
  cases ptr with
  | none => simp [Heap.deref] at hv
  | some a =>
    simp only [Heap.deref] at hv ⊢
    have hlt : a < h.length := by
      by_contra hge
      have hnone : h[a]? = none := List.getElem?_eq_none (Nat.le_of_not_lt hge)
      simp [hnone] at hv
    simp [List.getElem?_append_left hlt]

theorem Heap.deref_write_ne (h h2 : Heap) (ptr target : Ptr) (p : Product)
    (hw : Heap.write h target p = some h2) (hne : ptr ≠ target) :
    Heap.deref h2 ptr = Heap.deref h ptr := by
  cases target with
  | none => simp [Heap.write] at hw
  | some b =>
    cases ptr with
    | none => simp [Heap.deref]
    | some a =>
      have hab : b ≠ a := fun hab => hne (by rw [hab])
      simp only [Heap.write] at hw
      split at hw
      · simp only [Option.some.injEq] at hw
        subst hw
        simp [Heap.deref, List.getElem?_set_ne hab]
      · simp at hw

/-! ## Repository -/

theorem InMemoryRepository.wf_new (h : Heap) : NewInMemoryRepository.WF h := by
  simp [InMemoryRepository.WF, NewInMemoryRepository, GoMap.keys]

theorem InMemoryRepository.wf_alloc (r : InMemoryRepository) (h : Heap) (extra : List Product)
    (hwf : r.WF h) : r.WF (h ++ extra) := by
  refine ⟨hwf.1, fun kv hkv => ?_⟩
  rw [Heap.deref_append h extra kv.2 (hwf.2 kv hkv)]
  exact hwf.2 kv hkv

theorem InMemoryRepository.wf_save (r r1 : InMemoryRepository) (h : Heap) (product : Ptr)
    (err : Option GoError) (hwf : r.WF h) (hs : r.Save h product = some (r1, err)) :
    r1.WF h := by
  unfold InMemoryRepository.Save at hs
  cases hd : Heap.deref h product with
  | none => simp [hd] at hs
  | some p =>
    simp only [hd, Option.some.injEq, Prod.mk.injEq] at hs
    rw [← hs.1]
    refine ⟨GoMap.nodup_keys_set _ _ _ hwf.1, fun kv hkv => ?_⟩
    rcases GoMap.mem_set _ _ _ _ hkv with h1 | h1
    · simp [h1, hd]
    · exact hwf.2 kv h1

/-- **C1** `Save(p)` returns no error for every store state and every product `p`
(a valid pointer), and a following `Get(p.ProductID)` returns no error and a product
whose four fields are those of `p`, whatever the store held under that id. -/
theorem save_then_get (r : InMemoryRepository) (h : Heap) (product : Ptr) (p : Product)
    (hp : Heap.deref h product = some p) :
    ∃ r1, r.Save h product = some (r1, none) ∧
      ∃ h1 q, r1.Get h p.ProductID = some (h1, q, none) ∧ Heap.deref h1 q = some p := by
  refine ⟨{ products := GoMap.set r.products p.ProductID product }, ?_, ?_⟩
  · simp [InMemoryRepository.Save, hp]
  · refine ⟨h ++ [p], some h.length, ?_, ?_⟩
    · simp [InMemoryRepository.Get, GoMap.find_set_self, hp, Heap.alloc]
    · simp [Heap.deref]

/-- Witness of C1: the product of `TestGetProduct_Success` saved over an older entry
of the same id. -/
theorem save_then_get_witness :
    ∃ r1, InMemoryRepository.Save { products := [("test123", some 0)] }
        [⟨"test123", ⟨0⟩, 7, ⟨0, 0, none⟩⟩, ⟨"test123", ⟨0x4048FEB851EB851F⟩, 100, ⟨1, 0, none⟩⟩]
        (some 1) = some (r1, none) ∧
      ∃ h1 q, r1.Get
        [⟨"test123", ⟨0⟩, 7, ⟨0, 0, none⟩⟩, ⟨"test123", ⟨0x4048FEB851EB851F⟩, 100, ⟨1, 0, none⟩⟩]
        "test123" = some (h1, q, none) ∧
        Heap.deref h1 q = some ⟨"test123", ⟨0x4048FEB851EB851F⟩, 100, ⟨1, 0, none⟩⟩ :=
  save_then_get { products := [("test123", some 0)] }
    [⟨"test123", ⟨0⟩, 7, ⟨0, 0, none⟩⟩, ⟨"test123", ⟨0x4048FEB851EB851F⟩, 100, ⟨1, 0, none⟩⟩]
    (some 1) ⟨"test123", ⟨0x4048FEB851EB851F⟩, 100, ⟨1, 0, none⟩⟩ (by decide)

/-- **C2** For a well-formed store and every id, `Get` returns `ErrProductNotFound`
with a nil product exactly when no product is stored under the id; otherwise it
returns no error and a non-nil pointer to a product carrying the stored values. -/
theorem get_not_found_iff (r : InMemoryRepository) (h : Heap) (id : String)
    (hwf : r.WF h) :
    ((∃ h1, r.Get h id = some (h1, none, some GoError.ErrProductNotFound)) ↔
        id ∉ GoMap.keys r.products) ∧
      (id ∈ GoMap.keys r.products →
        ∃ h1 a stored p, r.Get h id = some (h1, some a, none) ∧
          (id, stored) ∈ r.products ∧ Heap.deref h stored = some p ∧
          Heap.deref h1 (some a) = some p) := by
  have hhit : id ∈ GoMap.keys r.products →
      ∃ h1 a stored p, r.Get h id = some (h1, some a, none) ∧
        (id, stored) ∈ r.products ∧ Heap.deref h stored = some p ∧
        Heap.deref h1 (some a) = some p := by
    intro hin
    cases hf : GoMap.find r.products id with
    | none => exact absurd hin ((GoMap.find_eq_none_iff _ _).mp hf)
    | some stored =>
      have hmem := GoMap.mem_of_find _ _ _ hf
      have hvalid := hwf.2 _ hmem
      cases hd : Heap.deref h stored with
      | none => simp [hd] at hvalid
      | some p =>
        refine ⟨h ++ [p], h.length, stored, p, ?_, hmem, hd, ?_⟩
        · simp [InMemoryRepository.Get, hf, hd, Heap.alloc]
        · simp [Heap.deref]
  refine ⟨⟨?_, ?_⟩, hhit⟩
  · rintro ⟨h1, hget⟩ hin
    obtain ⟨h2, a, stored, p, hget2, -⟩ := hhit hin
    rw [hget2] at hget
    simp at hget
  · intro hnot
    refine ⟨h, ?_⟩
    simp [InMemoryRepository.Get, (GoMap.find_eq_none_iff _ _).mpr hnot]

/-- Witness of C2: a store holding one product. -/
theorem get_not_found_iff_witness :
    ((∃ h1, InMemoryRepository.Get { products := [("p1", some 0)] }
          [⟨"p1", ⟨0x3FF0000000000000⟩, 1, ⟨5, 0, none⟩⟩] "nonexistent" =
          some (h1, none, some GoError.ErrProductNotFound)) ↔
        "nonexistent" ∉ GoMap.keys [("p1", some 0)]) ∧
      ("nonexistent" ∈ GoMap.keys [("p1", some 0)] →
        ∃ h1 a stored p, InMemoryRepository.Get { products := [("p1", some 0)] }
            [⟨"p1", ⟨0x3FF0000000000000⟩, 1, ⟨5, 0, none⟩⟩] "nonexistent" =
            some (h1, some a, none) ∧
          ("nonexistent", stored) ∈ ([("p1", some 0)] : GoMap) ∧
          Heap.deref [⟨"p1", ⟨0x3FF0000000000000⟩, 1, ⟨5, 0, none⟩⟩] stored = some p ∧
          Heap.deref h1 (some a) = some p) :=
  get_not_found_iff { products := [("p1", some 0)] }
    [⟨"p1", ⟨0x3FF0000000000000⟩, 1, ⟨5, 0, none⟩⟩] "nonexistent" (by decide)

/-! ## Handler -/

/-- **C3** (amended) For every decoded request submitted while the queue is open and has free
space: `CreateEvent` answers 400 and leaves the queue as it was exactly when
`product_id` is empty or `price < 0` or `stock < 0`; otherwise it answers 202 and the
queue holds exactly one more element, at its tail, the event carrying the request's
`product_id`, `price` and `stock`. -/
theorem createEvent_validation (q : InMemoryQueue) (now : Time) (req : EventRequest)
    (hopen : q.queue.closed = false) (hfree : q.queue.buf.length < q.queue.cap) :
    ((∃ msg, CreateEvent q now (some req) =
          Outcome.returned ({ status := 400, error := some msg }, q)) ↔
        (req.ProductID = "" ∨ req.Price.ltZero = true ∨ req.Stock < 0)) ∧
      (¬ (req.ProductID = "" ∨ req.Price.ltZero = true ∨ req.Stock < 0) →
        CreateEvent q now (some req) =
          Outcome.returned ({ status := 202, error := none },
            { queue := { q.queue with
                buf := q.queue.buf ++
                  [some { ProductID := req.ProductID, Price := req.Price,
                          Stock := req.Stock, Timestamp := now }] } })) := by
  have hok : ¬ (req.ProductID = "" ∨ req.Price.ltZero = true ∨ req.Stock < 0) →
      CreateEvent q now (some req) =
        Outcome.returned ({ status := 202, error := none },
          { queue := { q.queue with
              buf := q.queue.buf ++
                [some { ProductID := req.ProductID, Price := req.Price,
                        Stock := req.Stock, Timestamp := now }] } }) := by
    intro hvalid
    have h1 : ¬ req.ProductID = "" := fun h => hvalid (Or.inl h)
    have h2 : ¬ req.Price.ltZero = true := fun h => hvalid (Or.inr (Or.inl h))
    have h3 : ¬ req.Stock < 0 := fun h => hvalid (Or.inr (Or.inr h))
    simp [CreateEvent, h1, h2, h3, EnqueueProductUpdate, InMemoryQueue.Enqueue, Chan.send,
      hopen, hfree, NewEvent]
  refine ⟨⟨?_, ?_⟩, hok⟩
  · rintro ⟨msg, hres⟩
    by_contra hvalid
    rw [hok hvalid] at hres
    simp at hres
  · intro hbad
    by_cases h1 : req.ProductID = ""
    · exact ⟨"product_id is required", by simp [CreateEvent, h1]⟩
    · by_cases h2 : req.Price.ltZero = true
      · exact ⟨"price must be non-negative", by simp [CreateEvent, h1, h2]⟩
      · have h3 : req.Stock < 0 := by
          rcases hbad with h | h | h
          · exact absurd h h1
          · exact absurd h h2
          · exact h
        exact ⟨"stock must be non-negative", by simp [CreateEvent, h1, h2, h3]⟩

/-- Witness of C3: the request of `TestCreateEvent_Success` on the empty queue of
capacity 10 of the handler tests. -/
theorem createEvent_validation_witness :
    CreateEvent (NewInMemoryQueue 10) ⟨9, 0, none⟩
        (some ⟨"test123", ⟨0x4048FEB851EB851F⟩, 100⟩) =
      Outcome.returned ({ status := 202, error := none },
        { queue := { buf := [some ⟨"test123", ⟨0x4048FEB851EB851F⟩, 100, ⟨9, 0, none⟩⟩],
                     cap := 10, closed := false } }) :=
  (createEvent_validation (NewInMemoryQueue 10) ⟨9, 0, none⟩
    ⟨"test123", ⟨0x4048FEB851EB851F⟩, 100⟩ (by decide) (by decide)).2 (by decide)

/-! ## Processing one event, and aliasing -/

theorem Heap.deref_snoc (h : Heap) (p : Product) :
    Heap.deref (h ++ [p]) (some h.length) = some p := by
  simp [Heap.deref]

theorem Pool.processEvent_eq (repo : InMemoryRepository) (heap : Heap) (e : Event) :
    Pool.processEvent repo heap e =
      some ({ products := GoMap.set repo.products e.ProductID (some heap.length) },
        heap ++ [e.ToProduct]) := by
  simp [Pool.processEvent, Heap.alloc, InMemoryRepository.Save, Heap.deref, Event.ToProduct]

/-- **C6** For every event `e` and every store state, `processEvent` returns, and
afterwards `Get(e.ProductID)` returns no error and a product with
`ProductID = e.ProductID`, `Price = e.Price`, `Stock = e.Stock` and
`UpdatedAt = e.Timestamp`. -/
theorem processEvent_saves_copy (repo : InMemoryRepository) (heap : Heap) (e : Event) :
    ∃ r1 h1, Pool.processEvent repo heap e = some (r1, h1) ∧
      ∃ h2 q, r1.Get h1 e.ProductID = some (h2, q, none) ∧
        Heap.deref h2 q =
          some { ProductID := e.ProductID, Price := e.Price, Stock := e.Stock,
                 UpdatedAt := e.Timestamp } := by
  refine ⟨_, _, Pool.processEvent_eq repo heap e, ?_⟩
  refine ⟨heap ++ [e.ToProduct] ++ [e.ToProduct], some (heap ++ [e.ToProduct]).length, ?_, ?_⟩
  · simp [InMemoryRepository.Get, GoMap.find_set_self, Heap.deref, Heap.alloc,
      Event.ToProduct]
  · exact Heap.deref_snoc _ _

/-- **C7** For a well-formed store and a stored id, `Get(id)` returns a pointer to a
copy: whatever the caller then writes through that pointer, every stored pointer
still reads as before and a later `Get(id)` returns the same values again. -/
theorem get_returns_copy (r : InMemoryRepository) (h : Heap) (id : String)
    (hwf : r.WF h) (hin : id ∈ GoMap.keys r.products) :
    ∃ h1 q p, r.Get h id = some (h1, q, none) ∧ Heap.deref h1 q = some p ∧
      ∀ p2 : Product, ∃ h2, Heap.write h1 q p2 = some h2 ∧
        (∀ kv ∈ r.products, Heap.deref h2 kv.2 = Heap.deref h kv.2) ∧
        ∃ h3 q3, r.Get h2 id = some (h3, q3, none) ∧ Heap.deref h3 q3 = some p := by
  cases hf : GoMap.find r.products id with
  | none => exact absurd hin ((GoMap.find_eq_none_iff _ _).mp hf)
  | some stored =>
    have hmem := GoMap.mem_of_find _ _ _ hf
    have hvalid := hwf.2 _ hmem
    cases hd : Heap.deref h stored with
    | none => simp [hd] at hvalid
    | some p =>
      refine ⟨h ++ [p], some h.length, p, ?_, ?_, ?_⟩
      · simp [InMemoryRepository.Get, hf, hd, Heap.alloc]
      · simp [Heap.deref]
      · intro p2
        have hw : Heap.write (h ++ [p]) (some h.length) p2 =
            some ((h ++ [p]).set h.length p2) := by
          simp [Heap.write]
        have hframe : ∀ kv ∈ r.products,
            Heap.deref ((h ++ [p]).set h.length p2) kv.2 = Heap.deref h kv.2 := by
          intro kv hkv
          have hv := hwf.2 kv hkv
          have hne : kv.2 ≠ some h.length := by
            intro heq
            rw [heq] at hv
            simp [Heap.deref] at hv
          rw [Heap.deref_write_ne _ _ _ _ _ hw hne]
          exact Heap.deref_append h [p] kv.2 hv
        refine ⟨_, hw, hframe, ?_⟩
        have hd2 : Heap.deref ((h ++ [p]).set h.length p2) stored = some p := by
          rw [hframe _ hmem]
          exact hd
        refine ⟨(h ++ [p]).set h.length p2 ++ [p],
          some ((h ++ [p]).set h.length p2).length, ?_, ?_⟩
        · simp only [InMemoryRepository.Get, hf, hd2, Heap.alloc]
        · exact Heap.deref_snoc _ _

/-- Witness of C7: a store holding one product. -/
theorem get_returns_copy_witness :
    ∃ h1 q p, InMemoryRepository.Get { products := [("p1", some 0)] }
        [⟨"p1", ⟨0x3FF0000000000000⟩, 1, ⟨5, 0, none⟩⟩] "p1" = some (h1, q, none) ∧
      Heap.deref h1 q = some p ∧
      ∀ p2 : Product, ∃ h2, Heap.write h1 q p2 = some h2 ∧
        (∀ kv ∈ ([("p1", some 0)] : GoMap), Heap.deref h2 kv.2 =
          Heap.deref [⟨"p1", ⟨0x3FF0000000000000⟩, 1, ⟨5, 0, none⟩⟩] kv.2) ∧
        ∃ h3 q3, InMemoryRepository.Get { products := [("p1", some 0)] } h2 "p1" =
          some (h3, q3, none) ∧ Heap.deref h3 q3 = some p :=
  get_returns_copy { products := [("p1", some 0)] }
    [⟨"p1", ⟨0x3FF0000000000000⟩, 1, ⟨5, 0, none⟩⟩] "p1" (by decide) (by decide)

/-- **C8** (the code at the failing input) The caller saves the product at address 0
(`"p1"`, price 1.0, stock 1), then sets its price to 2.0 and its stock to 2 through
its own pointer: `Get("p1")` returns price 2.0 and stock 2, so the store entry is the
caller's product itself. -/
theorem save_keeps_caller_pointer :
    ∃ r1 h2 h3 q,
      InMemoryRepository.Save NewInMemoryRepository
          [⟨"p1", ⟨0x3FF0000000000000⟩, 1, ⟨5, 0, none⟩⟩] (some 0) = some (r1, none) ∧
        Heap.write [⟨"p1", ⟨0x3FF0000000000000⟩, 1, ⟨5, 0, none⟩⟩] (some 0)
          ⟨"p1", ⟨0x4000000000000000⟩, 2, ⟨5, 0, none⟩⟩ = some h2 ∧
        r1.Get h2 "p1" = some (h3, q, none) ∧
        Heap.deref h3 q = some ⟨"p1", ⟨0x4000000000000000⟩, 2, ⟨5, 0, none⟩⟩ ∧
        Heap.deref h3 q ≠ some ⟨"p1", ⟨0x3FF0000000000000⟩, 1, ⟨5, 0, none⟩⟩ := by
  refine ⟨{ products := [("p1", some 0)] },
    [⟨"p1", ⟨0x4000000000000000⟩, 2, ⟨5, 0, none⟩⟩],
    [⟨"p1", ⟨0x4000000000000000⟩, 2, ⟨5, 0, none⟩⟩,
     ⟨"p1", ⟨0x4000000000000000⟩, 2, ⟨5, 0, none⟩⟩], some 1, ?_, ?_, ?_, ?_, ?_⟩ <;> decide

/-! ## Queue -/

theorem InMemoryQueue.enqueueAll_open (buf es : List (Option Event)) (cap : Nat)
    (hlen : buf.length + es.length ≤ cap) :
    InMemoryQueue.enqueueAll { queue := { buf := buf, cap := cap, closed := false } } es =
      Outcome.returned { queue := { buf := buf ++ es, cap := cap, closed := false } } := by
  induction es generalizing buf with
  | nil => simp [InMemoryQueue.enqueueAll]
  | cons e es ih =>
    have hlt : buf.length < cap := by
      simp only [List.length_cons] at hlen
      omega
    have hlen2 : (buf ++ [e]).length + es.length ≤ cap := by
      simp only [List.length_append, List.length_cons, List.length_nil] at hlen ⊢
      omega
    have hrec := ih (buf ++ [e]) hlen2
    simp only [InMemoryQueue.enqueueAll, InMemoryQueue.Enqueue, Chan.send, hlt]
    simpa using hrec

theorem InMemoryQueue.dequeueN_front (es rest : List (Option Event)) (cap : Nat)
    (closed : Bool) :
    InMemoryQueue.dequeueN { queue := { buf := es ++ rest, cap := cap, closed := closed } }
        es.length =
      Outcome.returned ({ queue := { buf := rest, cap := cap, closed := closed } }, es) := by
  induction es with
  | nil => simp [InMemoryQueue.dequeueN]
  | cons e es ih =>
    simp only [List.length_cons, List.cons_append, InMemoryQueue.dequeueN,
      InMemoryQueue.Dequeue, Chan.recv, ih]

theorem InMemoryQueue.dequeueN_closed_empty (cap n : Nat) :
    InMemoryQueue.dequeueN { queue := { buf := [], cap := cap, closed := true } } n =
      Outcome.returned ({ queue := { buf := [], cap := cap, closed := true } },
        List.replicate n none) := by
  induction n with
  | zero => simp [InMemoryQueue.dequeueN]
  | succ n ih =>
    simp only [InMemoryQueue.dequeueN, InMemoryQueue.Dequeue, Chan.recv, if_true]
    rw [ih]
    simp [List.replicate_succ]

/-- **C10** Every sequence of at most `cap` event pointers is accepted by a new queue
of capacity `cap`; as many `Dequeue` calls then return exactly those pointers in
enqueue order, whether `Close` was called after the last `Enqueue` or not; and on the
closed, drained queue every further `Dequeue` returns at once with a nil event and a
nil error, leaving the queue as it is. -/
theorem queue_fifo_drain (cap : Nat) (es : List (Option Event)) (hlen : es.length ≤ cap) :
    ∃ q1, (NewInMemoryQueue cap).enqueueAll es = Outcome.returned q1 ∧
      (∃ q2, q1.dequeueN es.length = Outcome.returned (q2, es)) ∧
      ∃ qc, q1.Close = Outcome.returned (qc, none) ∧
        ∃ qd, qc.dequeueN es.length = Outcome.returned (qd, es) ∧
          qd.Dequeue = Outcome.returned (qd, none, none) ∧
          ∀ n, qd.dequeueN n = Outcome.returned (qd, List.replicate n none) := by
  refine ⟨{ queue := { buf := es, cap := cap, closed := false } }, ?_, ?_, ?_⟩
  · have h := InMemoryQueue.enqueueAll_open [] es cap (by simpa using hlen)
    simpa [NewInMemoryQueue] using h
  · have h := InMemoryQueue.dequeueN_front es [] cap false
    rw [List.append_nil] at h
    exact ⟨_, h⟩
  · refine ⟨{ queue := { buf := es, cap := cap, closed := true } }, ?_, ?_⟩
    · simp [InMemoryQueue.Close, Chan.close]
    · have h := InMemoryQueue.dequeueN_front es [] cap true
      rw [List.append_nil] at h
      refine ⟨_, h, ?_, InMemoryQueue.dequeueN_closed_empty cap⟩
      simp [InMemoryQueue.Dequeue, Chan.recv]

/-- Witness of C10: two events through a queue of capacity 2. -/
theorem queue_fifo_drain_witness :
    ∃ q1, (NewInMemoryQueue 2).enqueueAll
        [some ⟨"p1", ⟨0x3FF0000000000000⟩, 1, ⟨5, 0, none⟩⟩,
         some ⟨"p2", ⟨0x4000000000000000⟩, 2, ⟨6, 0, none⟩⟩] = Outcome.returned q1 ∧
      (∃ q2, q1.dequeueN 2 = Outcome.returned (q2,
        [some ⟨"p1", ⟨0x3FF0000000000000⟩, 1, ⟨5, 0, none⟩⟩,
         some ⟨"p2", ⟨0x4000000000000000⟩, 2, ⟨6, 0, none⟩⟩])) ∧
      ∃ qc, q1.Close = Outcome.returned (qc, none) ∧
        ∃ qd, qc.dequeueN 2 = Outcome.returned (qd,
            [some ⟨"p1", ⟨0x3FF0000000000000⟩, 1, ⟨5, 0, none⟩⟩,
             some ⟨"p2", ⟨0x4000000000000000⟩, 2, ⟨6, 0, none⟩⟩]) ∧
          qd.Dequeue = Outcome.returned (qd, none, none) ∧
          ∀ n, qd.dequeueN n = Outcome.returned (qd, List.replicate n none) :=
  queue_fifo_drain 2
    [some ⟨"p1", ⟨0x3FF0000000000000⟩, 1, ⟨5, 0, none⟩⟩,
     some ⟨"p2", ⟨0x4000000000000000⟩, 2, ⟨6, 0, none⟩⟩] (by decide)

/-! ## Worker pool: the wait group counts the running workers -/

theorem WorkerState.countP_set (f : WorkerState → Bool) (l : List WorkerState) (i : Nat)
    (old new : WorkerState) (hget : l[i]? = some old) :
    (l.set i new).countP f + (if f old then 1 else 0) =
      l.countP f + (if f new then 1 else 0) := by
  induction l generalizing i with
  | nil => simp at hget
  | cons w l ih =>
    cases i with
    | zero =>
      simp only [List.getElem?_cons_zero, Option.some.injEq] at hget
      subst hget
      simp only [List.set_cons_zero, List.countP_cons]
      omega
    | succ i =>
      simp only [List.getElem?_cons_succ] at hget
      have hrec := ih i hget
      simp only [List.set_cons_succ, List.countP_cons]
      omega

theorem Pool.running_exitWorker (p p1 : Pool) (i : Nat) (w : WorkerState)
    (hget : p.workers[i]? = some w) (hw : w.running = true)
    (hinv : p.wg = (p.running : Int)) (hexit : p.exitWorker i = some p1) :
    p1.wg = (p1.running : Int) := by
  unfold Pool.exitWorker WaitGroup.Done at hexit
  split at hexit
  · simp at hexit
  · rename_i n hn
    split at hn
    · simp at hn
    · simp only [Option.some.injEq] at hn hexit
      subst hexit
      have hc := WorkerState.countP_set WorkerState.running p.workers i w WorkerState.exited hget
      have hex : WorkerState.running WorkerState.exited = false := rfl
      rw [hw, hex] at hc
      simp only [Pool.running] at hinv ⊢
      simp only [if_true, Bool.false_eq_true, if_false] at hc
      omega

theorem Pool.running_accept (p : Pool) (i : Nat) (event : Option Event)
    (hget : p.workers[i]? = some WorkerState.idle) :
    (Pool.accept p i event).wg = p.wg ∧ (Pool.accept p i event).running = p.running := by
  cases event with
  | none => simp [Pool.accept]
  | some e =>
    have hc := WorkerState.countP_set WorkerState.running p.workers i WorkerState.idle
      (WorkerState.processing e) hget
    simp only [WorkerState.running, if_true] at hc
    simp only [Pool.accept, Pool.running, true_and]
    omega

/-- One step keeps the wait-group counter equal to the number of running workers. -/
theorem Pool.step_counter (p p1 : Pool) (a : Action) (hinv : p.wg = (p.running : Int))
    (hstep : p.step a = some p1) : p1.wg = (p1.running : Int) := by
  cases a with
  | spawn =>
    simp only [Pool.step] at hstep
    split at hstep
    · simp only [Option.some.injEq] at hstep
      subst hstep
      simp only [Pool.running, List.countP_append, List.countP_cons, List.countP_nil,
        WorkerState.running] at hinv ⊢
      simp only [if_true]
      omega
    · simp at hstep
  | recv i =>
    simp only [Pool.step] at hstep
    split at hstep
    · rename_i hget
      split at hstep
      · rename_i event c hrecv
        simp only [Option.some.injEq] at hstep
        subst hstep
        have h := Pool.running_accept { p with queue := { queue := c } } i event hget
        rw [h.1, h.2]
        exact hinv
      · exact Pool.running_exitWorker p p1 i _ hget rfl hinv hstep
      · simp at hstep
    · simp at hstep
  | done i =>
    simp only [Pool.step] at hstep
    split at hstep
    · rename_i hget
      split at hstep
      · exact Pool.running_exitWorker p p1 i _ hget rfl hinv hstep
      · simp at hstep
    · simp at hstep
  | process i =>
    simp only [Pool.step] at hstep
    split at hstep
    · rename_i e hget
      split at hstep
      · simp at hstep
      · simp only [Option.some.injEq] at hstep
        subst hstep
        have hc := WorkerState.countP_set WorkerState.running p.workers i
          (WorkerState.processing e) WorkerState.idle hget
        simp only [WorkerState.running, if_true] at hc
        simp only [Pool.running] at hinv ⊢
        omega
    · simp at hstep
  | enqueue event =>
    simp only [Pool.step] at hstep
    split at hstep
    · simp only [Option.some.injEq] at hstep
      subst hstep
      exact hinv
    · simp at hstep
  | handoff i event =>
    simp only [Pool.step] at hstep
    split at hstep
    · rename_i hget
      split at hstep
      · simp only [Option.some.injEq] at hstep
        subst hstep
        have h := Pool.running_accept p i event hget
        rw [h.1, h.2]
        exact hinv
      · simp at hstep
    · simp at hstep
  | close =>
    simp only [Pool.step] at hstep
    split at hstep
    · simp only [Option.some.injEq] at hstep
      subst hstep
      exact hinv
    · simp at hstep
  | cancel =>
    simp only [Pool.step] at hstep
    split at hstep
    · simp only [Option.some.injEq] at hstep
      subst hstep
      exact hinv
    · simp at hstep
  | wait =>
    simp only [Pool.step] at hstep
    split at hstep
    · simp only [Option.some.injEq] at hstep
      subst hstep
      exact hinv
    · simp at hstep

theorem Pool.run_counter (acts : List Action) (p p1 : Pool)
    (hinv : p.wg = (p.running : Int)) (hrun : p.run acts = some p1) :
    p1.wg = (p1.running : Int) := by
  induction acts generalizing p with
  | nil =>
    simp only [Pool.run, Option.some.injEq] at hrun
    subst hrun
    exact hinv
  | cons a acts ih =>
    simp only [Pool.run] at hrun
    split at hrun
    · simp at hrun
    · rename_i p2 hstep
      exact ih p2 (Pool.step_counter p p2 a hinv hstep) hrun

/-- **C9** In every state the pool reaches from `NewPool`, the wait-group counter is
the number of spawned workers that have not exited; and whenever the `Wait` of `Stop`
returns there, the counter is zero and every spawned worker has exited, so none is
at its `select` or holds a dequeued event. -/
theorem stop_waits_for_workers (n : Int) (q : InMemoryQueue) (repo : InMemoryRepository)
    (heap : Heap) (acts : List Action) (p : Pool)
    (hrun : (NewPool n q repo heap).run acts = some p) :
    p.wg = (p.running : Int) ∧
      ∀ p1, p.step Action.wait = some p1 →
        p.wg = 0 ∧ p1.stop = StopPhase.returned ∧
          ∀ w ∈ p1.workers, w = WorkerState.exited := by
  have hinv : p.wg = (p.running : Int) :=
    Pool.run_counter acts (NewPool n q repo heap) p (by simp [NewPool, Pool.running]) hrun
  refine ⟨hinv, fun p1 hstep => ?_⟩
  simp only [Pool.step] at hstep
  split at hstep
  · rename_i hguard
    simp only [Option.some.injEq] at hstep
    subst hstep
    refine ⟨hguard.2, rfl, fun w hw => ?_⟩
    have hzero : p.running = 0 := by
      have h0 := hguard.2
      rw [hinv] at h0
      exact_mod_cast h0
    simp only [Pool.running, List.countP_eq_zero] at hzero
    have hnot := hzero w hw
    cases w with
    | idle => simp [WorkerState.running] at hnot
    | processing e => simp [WorkerState.running] at hnot
    | exited => rfl
  · simp at hstep

/-! ## Worker pool: what the store reflects -/

theorem lastFor_append_same (applied : List Event) (e : Event) :
    lastFor (applied ++ [e]) e.ProductID = some e := by
  simp [lastFor, List.filter_append]

theorem lastFor_append_ne (applied : List Event) (e : Event) (id : String)
    (hne : e.ProductID ≠ id) : lastFor (applied ++ [e]) id = lastFor applied id := by
  simp [lastFor, List.filter_append, hne]

theorem lastFor_mem (es : List Event) (id : String) (e : Event)
    (hlast : lastFor es id = some e) : e ∈ es ∧ e.ProductID = id := by
  have hmem := List.mem_of_getLast?_eq_some hlast
  simpa using hmem

theorem lastFor_isSome_of_mem (es : List Event) (e : Event) (hmem : e ∈ es) :
    ∃ x, lastFor es e.ProductID = some x := by
  cases hl : lastFor es e.ProductID with
  | some x => exact ⟨x, rfl⟩
  | none =>
    simp only [lastFor, List.getLast?_eq_none_iff, List.filter_eq_nil_iff] at hl
    have := hl e hmem
    simp at this

theorem lastFor_of_nodup (es : List Event) (e : Event) (hmem : e ∈ es)
    (hnd : (es.map Event.ProductID).Nodup) : lastFor es e.ProductID = some e := by
  obtain ⟨x, hx⟩ := lastFor_isSome_of_mem es e hmem
  have hxm := lastFor_mem es _ x hx
  have heq : x = e := List.inj_on_of_nodup_map hnd hxm.1 hmem hxm.2
  rw [hx, heq]

theorem InMemoryRepository.reflects_new (h : Heap) :
    NewInMemoryRepository.Reflects h [] := by
  refine ⟨InMemoryRepository.wf_new h, fun id => ?_⟩
  simp [InMemoryRepository.view, NewInMemoryRepository, GoMap.find, lastFor]

/-- Saving the product of one more event keeps the store in step with the events
applied. -/
theorem InMemoryRepository.reflects_processEvent (r r1 : InMemoryRepository) (h h1 : Heap)
    (applied : List Event) (e : Event) (href : r.Reflects h applied)
    (hproc : Pool.processEvent r h e = some (r1, h1)) :
    r1.Reflects h1 (applied ++ [e]) := by
  rw [Pool.processEvent_eq] at hproc
  simp only [Option.some.injEq, Prod.mk.injEq] at hproc
  obtain ⟨hr, hh⟩ := hproc
  subst hr hh
  have hwf1 : r.WF (h ++ [e.ToProduct]) := InMemoryRepository.wf_alloc r h _ href.1
  have hsave : r.Save (h ++ [e.ToProduct]) (some h.length) =
      some ({ products := GoMap.set r.products e.ProductID (some h.length) }, none) := by
    simp [InMemoryRepository.Save, Heap.deref, Event.ToProduct]
  refine ⟨InMemoryRepository.wf_save r _ _ _ _ hwf1 hsave, fun id => ?_⟩
  by_cases hid : e.ProductID = id
  · subst hid
    rw [lastFor_append_same]
    simp only [InMemoryRepository.view, GoMap.find_set_self, Option.map_some']
    exact Heap.deref_snoc _ _
  · rw [lastFor_append_ne applied e id hid, ← href.2 id]
    simp only [InMemoryRepository.view, GoMap.find_set_ne _ _ _ _ hid]
    cases hf : GoMap.find r.products id with
    | none => rfl
    | some ptr =>
      exact Heap.deref_append h _ ptr (href.1.2 _ (GoMap.mem_of_find _ _ _ hf))

/-- What the store shows under an id is what `Get` returns for it. -/
theorem InMemoryRepository.get_of_view (r : InMemoryRepository) (h : Heap) (id : String)
    (p : Product) (hview : r.view h id = some p) :
    ∃ h1 q, r.Get h id = some (h1, q, none) ∧ Heap.deref h1 q = some p := by
  unfold InMemoryRepository.view at hview
  cases hf : GoMap.find r.products id with
  | none => simp [hf] at hview
  | some ptr =>
    simp only [hf] at hview
    refine ⟨h ++ [p], some h.length, ?_, Heap.deref_snoc _ _⟩
    simp [InMemoryRepository.Get, hf, hview, Heap.alloc]

/-- In a store that reflects `applied`, the keys are the product ids of `applied`. -/
theorem InMemoryRepository.mem_keys_of_reflects (r : InMemoryRepository) (h : Heap)
    (applied : List Event) (href : r.Reflects h applied) (id : String) :
    id ∈ GoMap.keys r.products ↔ id ∈ applied.map Event.ProductID := by
  constructor
  · intro hin
    cases hf : GoMap.find r.products id with
    | none => exact absurd hin ((GoMap.find_eq_none_iff _ _).mp hf)
    | some ptr =>
      have hvalid := href.1.2 _ (GoMap.mem_of_find _ _ _ hf)
      have hv := href.2 id
      simp only [InMemoryRepository.view, hf] at hv
      cases hl : lastFor applied id with
      | none =>
        rw [hl] at hv
        simp [hv] at hvalid
      | some x =>
        have hx := lastFor_mem applied id x hl
        exact List.mem_map.mpr ⟨x, hx.1, hx.2⟩
  · intro hin
    obtain ⟨e, he, hid⟩ := List.mem_map.mp hin
    subst hid
    obtain ⟨x, hx⟩ := lastFor_isSome_of_mem applied e he
    have hv := href.2 e.ProductID
    rw [hx] at hv
    by_contra hnot
    simp [InMemoryRepository.view, (GoMap.find_eq_none_iff _ _).mpr hnot] at hv

/-! ## Worker pool: the effect of one step -/

theorem WorkerState.filterMap_set_none (l : List WorkerState) (i : Nat) (w w2 : WorkerState)
    (hget : l[i]? = some w) (hw : w.inflight = none) (hw2 : w2.inflight = none) :
    (l.set i w2).filterMap WorkerState.inflight = l.filterMap WorkerState.inflight := by
  induction l generalizing i with
  | nil => simp at hget
  | cons x l ih =>
    cases i with
    | zero =>
      simp only [List.getElem?_cons_zero, Option.some.injEq] at hget
      subst hget
      simp [List.filterMap_cons, hw, hw2]
    | succ i =>
      simp only [List.getElem?_cons_succ] at hget
      simp only [List.set_cons_succ, List.filterMap_cons, ih i hget]

theorem WorkerState.filterMap_set_take (l : List WorkerState) (i : Nat) (w : WorkerState)
    (e : Event) (hget : l[i]? = some w) (hw : w.inflight = none) :
    ((l.set i (WorkerState.processing e)).filterMap WorkerState.inflight).Perm
      (e :: l.filterMap WorkerState.inflight) := by
  induction l generalizing i with
  | nil => simp at hget
  | cons x l ih =>
    cases i with
    | zero =>
      simp only [List.getElem?_cons_zero, Option.some.injEq] at hget
      subst hget
      have hp : (WorkerState.processing e).inflight = some e := rfl
      simp [List.filterMap_cons, hw, hp]
    | succ i =>
      simp only [List.getElem?_cons_succ] at hget
      have hrec := ih i hget
      simp only [List.set_cons_succ, List.filterMap_cons]
      cases hx : x.inflight with
      | none => exact hrec
      | some y => exact (hrec.cons y).trans (List.Perm.swap e y _)

theorem WorkerState.filterMap_set_release (l : List WorkerState) (i : Nat) (w2 : WorkerState)
    (e : Event) (hget : l[i]? = some (WorkerState.processing e)) (hw2 : w2.inflight = none) :
    (l.filterMap WorkerState.inflight).Perm
      (e :: (l.set i w2).filterMap WorkerState.inflight) := by
  induction l generalizing i with
  | nil => simp at hget
  | cons x l ih =>
    cases i with
    | zero =>
      simp only [List.getElem?_cons_zero, Option.some.injEq] at hget
      subst hget
      have hp : (WorkerState.processing e).inflight = some e := rfl
      simp [List.filterMap_cons, hw2, hp]
    | succ i =>
      simp only [List.getElem?_cons_succ] at hget
      have hrec := ih i hget
      simp only [List.set_cons_succ, List.filterMap_cons]
      cases hx : x.inflight with
      | none => exact hrec
      | some y => exact (hrec.cons y).trans (List.Perm.swap e y _)

theorem InMemoryQueue.buf_of_enqueue (q q1 : InMemoryQueue) (event : Option Event)
    (err : Option GoError) (henq : q.Enqueue event = Outcome.returned (q1, err)) :
    q1.queue.buf = q.queue.buf ++ [event] := by
  unfold InMemoryQueue.Enqueue Chan.send at henq
  by_cases hc : q.queue.closed = true
  · simp [hc] at henq
  · by_cases hl : q.queue.buf.length < q.queue.cap
    · simp [hc, hl] at henq
      rw [← henq.1]
    · simp [hc, hl] at henq

theorem InMemoryQueue.buf_of_close (q q1 : InMemoryQueue) (err : Option GoError)
    (hclose : q.Close = Outcome.returned (q1, err)) : q1.queue.buf = q.queue.buf := by
  unfold InMemoryQueue.Close Chan.close at hclose
  by_cases hc : q.queue.closed = true
  · simp [hc] at hclose
  · simp [hc] at hclose
    rw [← hclose.1]

theorem Pool.exitWorker_silent (p p1 : Pool) (a : Action) (i : Nat)
    (hget : p.workers[i]? = some WorkerState.idle) (henq : nonNil a.enqueues = [])
    (hexit : p.exitWorker i = some p1) : Pool.Effect p a p1 := by
  unfold Pool.exitWorker at hexit
  split at hexit
  · simp at hexit
  · simp only [Option.some.injEq] at hexit
    subst hexit
    exact Pool.Effect.silent rfl rfl
      (WorkerState.filterMap_set_none p.workers i _ _ hget rfl rfl) rfl henq

/-- Every step that can be taken has one of the five effects. -/
theorem Pool.step_effect (p p1 : Pool) (a : Action) (hstep : p.step a = some p1) :
    Pool.Effect p a p1 := by
  cases a with
  | spawn =>
    simp only [Pool.step] at hstep
    split at hstep
    · simp only [Option.some.injEq] at hstep
      subst hstep
      refine Pool.Effect.silent rfl rfl ?_ rfl rfl
      simp [Pool.inflight, List.filterMap_append, WorkerState.inflight]
    · simp at hstep
  | recv i =>
    simp only [Pool.step] at hstep
    split at hstep
    · rename_i hget
      split at hstep
      · rename_i event c hrecv
        simp only [Option.some.injEq] at hstep
        subst hstep
        have hbuf : p.queue.queue.buf = event :: c.buf := by
          simp only [InMemoryQueue.GetChannel, Chan.recv] at hrecv
          split at hrecv
          · rename_i v rest hb
            simp only [Outcome.returned.injEq, Prod.mk.injEq, and_true] at hrecv
            rw [hb, ← hrecv.2, hrecv.1]
          · split at hrecv <;> simp at hrecv
        cases event with
        | none =>
          refine Pool.Effect.silent rfl rfl rfl ?_ rfl
          simp [Pool.accept, hbuf, nonNil]
        | some e =>
          refine Pool.Effect.taken i e rfl rfl hget rfl ?_ rfl
          simp [Pool.accept, hbuf, nonNil]
      · exact Pool.exitWorker_silent p p1 _ i hget rfl hstep
      · simp at hstep
    · simp at hstep
  | done i =>
    simp only [Pool.step] at hstep
    split at hstep
    · rename_i hget
      split at hstep
      · exact Pool.exitWorker_silent p p1 _ i hget rfl hstep
      · simp at hstep
    · simp at hstep
  | process i =>
    simp only [Pool.step] at hstep
    split at hstep
    · rename_i e hget
      split at hstep
      · simp at hstep
      · rename_i r1 h1 hproc
        simp only [Option.some.injEq] at hstep
        subst hstep
        exact Pool.Effect.saved i e hproc hget rfl rfl rfl
    · simp at hstep
  | enqueue event =>
    simp only [Pool.step] at hstep
    split at hstep
    · rename_i q1 err henq
      simp only [Option.some.injEq] at hstep
      subst hstep
      have hbuf : q1.queue.buf = p.queue.queue.buf ++ [event] :=
        InMemoryQueue.buf_of_enqueue _ _ _ _ henq
      cases event with
      | none =>
        refine Pool.Effect.silent rfl rfl rfl ?_ rfl
        simp [hbuf, nonNil, List.filterMap_append]
      | some e =>
        refine Pool.Effect.buffered e rfl rfl rfl ?_ rfl
        simp [hbuf, nonNil, List.filterMap_append]
    · simp at hstep
  | handoff i event =>
    simp only [Pool.step] at hstep
    split at hstep
    · rename_i hget
      split at hstep
      · rename_i hguard
        simp only [Option.some.injEq] at hstep
        subst hstep
        cases event with
        | none => exact Pool.Effect.silent rfl rfl rfl rfl rfl
        | some e => exact Pool.Effect.handed i e rfl rfl hget rfl hguard.2 hguard.2 rfl
      · simp at hstep
    · simp at hstep
  | close =>
    simp only [Pool.step] at hstep
    split at hstep
    · rename_i q1 err hclose
      simp only [Option.some.injEq] at hstep
      subst hstep
      refine Pool.Effect.silent rfl rfl rfl ?_ rfl
      simp only [InMemoryQueue.buf_of_close _ _ _ hclose]
    · simp at hstep
  | cancel =>
    simp only [Pool.step] at hstep
    split at hstep
    · simp only [Option.some.injEq] at hstep
      subst hstep
      exact Pool.Effect.silent rfl rfl rfl rfl rfl
    · simp at hstep
  | wait =>
    simp only [Pool.step] at hstep
    split at hstep
    · simp only [Option.some.injEq] at hstep
      subst hstep
      exact Pool.Effect.silent rfl rfl rfl rfl rfl
    · simp at hstep

/-! ## Worker pool: invariants along a schedule -/

theorem enqueued_cons (a : Action) (acts : List Action) :
    enqueued (a :: acts) = a.enqueues ++ enqueued acts := by
  cases a <;> rfl

theorem nonNil_append (l1 l2 : List (Option Event)) :
    nonNil (l1 ++ l2) = nonNil l1 ++ nonNil l2 := by
  simp [nonNil, List.filterMap_append]

theorem nonNil_map_some (es : List Event) : nonNil (es.map some) = es := by
  induction es with
  | nil => rfl
  | cons e es ih =>
    simp only [nonNil, List.map_cons, List.filterMap_cons, id] at ih ⊢
    rw [ih]

/-- One step keeps the rearrangement invariant, for any number of workers. -/
theorem Pool.step_invPerm (p p1 : Pool) (a : Action) (hist : List Event)
    (hinv : p.InvPerm hist) (hstep : p.step a = some p1) :
    p1.InvPerm (hist ++ nonNil a.enqueues) := by
  obtain ⟨applied, href, hperm⟩ := hinv
  cases Pool.step_effect p p1 a hstep with
  | silent hrepo hheap hworkers hbuf henq =>
    refine ⟨applied, ?_, ?_⟩
    · rw [hrepo, hheap]
      exact href
    · rw [hworkers, hbuf, henq, List.append_nil]
      exact hperm
  | buffered e hrepo hheap hworkers hbuf henq =>
    refine ⟨applied, ?_, ?_⟩
    · rw [hrepo, hheap]
      exact href
    · have hw : p1.inflight = p.inflight := by simp [Pool.inflight, hworkers]
      rw [hw, hbuf, henq, ← List.append_assoc]
      exact hperm.append_right [e]
  | taken i e hrepo hheap hidle hworkers hbuf henq =>
    refine ⟨applied, ?_, ?_⟩
    · rw [hrepo, hheap]
      exact href
    · have hw : p1.inflight.Perm (e :: p.inflight) := by
        simp only [Pool.inflight, hworkers]
        exact WorkerState.filterMap_set_take p.workers i _ e hidle rfl
      rw [henq, List.append_nil]
      rw [hbuf] at hperm
      refine List.Perm.trans ?_ hperm
      have h1 : (applied ++ p1.inflight ++ nonNil p1.queue.queue.buf).Perm
          (applied ++ (e :: p.inflight) ++ nonNil p1.queue.queue.buf) :=
        (hw.append_left applied).append_right _
      refine h1.trans ?_
      rw [List.append_assoc, List.append_assoc]
      refine List.Perm.append_left applied ?_
      rw [List.cons_append]
      exact List.perm_middle.symm
  | handed i e hrepo hheap hidle hworkers hbuf hbuf1 henq =>
    refine ⟨applied, ?_, ?_⟩
    · rw [hrepo, hheap]
      exact href
    · have hw : p1.inflight.Perm (e :: p.inflight) := by
        simp only [Pool.inflight, hworkers]
        exact WorkerState.filterMap_set_take p.workers i _ e hidle rfl
      rw [hbuf] at hperm
      rw [hbuf1, henq]
      simp only [nonNil, List.filterMap_nil, List.append_nil] at hperm ⊢
      have h1 : (applied ++ p1.inflight).Perm (applied ++ e :: p.inflight) :=
        hw.append_left applied
      refine h1.trans ?_
      refine List.Perm.trans ?_ (hperm.append_right [e])
      rw [List.append_assoc]
      refine List.Perm.append_left applied ?_
      exact (List.perm_append_singleton e p.inflight).symm
  | saved i e hproc hheld hworkers hbuf henq =>
    refine ⟨applied ++ [e], ?_, ?_⟩
    · exact InMemoryRepository.reflects_processEvent _ _ _ _ applied e href hproc
    · have hw : p.inflight.Perm (e :: p1.inflight) := by
        simp only [Pool.inflight, hworkers]
        exact WorkerState.filterMap_set_release p.workers i _ e hheld rfl
      rw [henq, List.append_nil, hbuf]
      refine List.Perm.trans ?_ hperm
      refine List.Perm.append_right _ ?_
      rw [List.append_assoc]
      exact (hw.append_left applied).symm

theorem Pool.run_invPerm (acts : List Action) (p p1 : Pool) (hist : List Event)
    (hinv : p.InvPerm hist) (hrun : p.run acts = some p1) :
    p1.InvPerm (hist ++ nonNil (enqueued acts)) := by
  induction acts generalizing p hist with
  | nil =>
    simp only [Pool.run, Option.some.injEq] at hrun
    subst hrun
    simpa [enqueued, nonNil] using hinv
  | cons a acts ih =>
    simp only [Pool.run] at hrun
    split at hrun
    · simp at hrun
    · rename_i p2 hstep
      have h2 := ih p2 _ (Pool.step_invPerm p p2 a hist hinv hstep) hrun
      rw [enqueued_cons, nonNil_append, ← List.append_assoc]
      exact h2

theorem Pool.exitWorker_workers (p p1 : Pool) (i : Nat) (hexit : p.exitWorker i = some p1) :
    p1.workerCount = p.workerCount ∧ p1.workers.length = p.workers.length := by
  unfold Pool.exitWorker at hexit
  split at hexit
  · simp at hexit
  · simp only [Option.some.injEq] at hexit
    subst hexit
    simp

theorem Pool.accept_workers (p : Pool) (i : Nat) (event : Option Event) :
    (Pool.accept p i event).workerCount = p.workerCount ∧
      (Pool.accept p i event).workers.length = p.workers.length := by
  cases event <;> simp [Pool.accept]

/-- A step keeps `workerCount`, and the number of spawned workers either stays or
stays within `workerCount`. -/
theorem Pool.step_workers (p p1 : Pool) (a : Action) (hstep : p.step a = some p1) :
    p1.workerCount = p.workerCount ∧
      (p1.workers.length = p.workers.length ∨ (p1.workers.length : Int) ≤ p.workerCount) := by
  cases a with
  | spawn =>
    simp only [Pool.step] at hstep
    split at hstep
    · rename_i hguard
      simp only [Option.some.injEq] at hstep
      subst hstep
      refine ⟨rfl, Or.inr ?_⟩
      simp only [List.length_append, List.length_cons, List.length_nil]
      push_cast
      omega
    · simp at hstep
  | recv i =>
    simp only [Pool.step] at hstep
    split at hstep
    · split at hstep
      · rename_i event c hrecv
        simp only [Option.some.injEq] at hstep
        subst hstep
        have h := Pool.accept_workers { p with queue := { queue := c } } i event
        exact ⟨h.1, Or.inl h.2⟩
      · have h := Pool.exitWorker_workers p p1 i hstep
        exact ⟨h.1, Or.inl h.2⟩
      · simp at hstep
    · simp at hstep
  | done i =>
    simp only [Pool.step] at hstep
    split at hstep
    · split at hstep
      · have h := Pool.exitWorker_workers p p1 i hstep
        exact ⟨h.1, Or.inl h.2⟩
      · simp at hstep
    · simp at hstep
  | process i =>
    simp only [Pool.step] at hstep
    split at hstep
    · split at hstep
      · simp at hstep
      · simp only [Option.some.injEq] at hstep
        subst hstep
        exact ⟨rfl, Or.inl (by simp)⟩
    · simp at hstep
  | enqueue event =>
    simp only [Pool.step] at hstep
    split at hstep
    · simp only [Option.some.injEq] at hstep
      subst hstep
      exact ⟨rfl, Or.inl rfl⟩
    · simp at hstep
  | handoff i event =>
    simp only [Pool.step] at hstep
    split at hstep
    · split at hstep
      · simp only [Option.some.injEq] at hstep
        subst hstep
        have h := Pool.accept_workers p i event
        exact ⟨h.1, Or.inl h.2⟩
      · simp at hstep
    · simp at hstep
  | close =>
    simp only [Pool.step] at hstep
    split at hstep
    · simp only [Option.some.injEq] at hstep
      subst hstep
      exact ⟨rfl, Or.inl rfl⟩
    · simp at hstep
  | cancel =>
    simp only [Pool.step] at hstep
    split at hstep
    · simp only [Option.some.injEq] at hstep
      subst hstep
      exact ⟨rfl, Or.inl rfl⟩
    · simp at hstep
  | wait =>
    simp only [Pool.step] at hstep
    split at hstep
    · simp only [Option.some.injEq] at hstep
      subst hstep
      exact ⟨rfl, Or.inl rfl⟩
    · simp at hstep

theorem WorkerState.single (l : List WorkerState) (i : Nat) (w : WorkerState)
    (hlen : l.length ≤ 1) (hget : l[i]? = some w) : l = [w] ∧ i = 0 := by
  match l, i with
  | [], _ => simp at hget
  | [x], 0 =>
    simp only [List.getElem?_cons_zero, Option.some.injEq] at hget
    simp [hget]
  | [x], i + 1 => simp at hget
  | x :: y :: l, _ => simp at hlen

/-- One step of a pool of at most one worker keeps the first-in-first-out invariant. -/
theorem Pool.step_invSeq (p p1 : Pool) (a : Action) (hist : List Event)
    (hinv : p.InvSeq hist) (hstep : p.step a = some p1) :
    p1.InvSeq (hist ++ nonNil a.enqueues) := by
  obtain ⟨hwc, hlen, applied, href, heq⟩ := hinv
  have hws := Pool.step_workers p p1 a hstep
  have hwc1 : p1.workerCount ≤ 1 := by rw [hws.1]; exact hwc
  have hlen1 : p1.workers.length ≤ 1 := by
    rcases hws.2 with h | h
    · rw [h]; exact hlen
    · have h2 : (p1.workers.length : Int) ≤ 1 := le_trans h hwc
      exact_mod_cast h2
  refine ⟨hwc1, hlen1, ?_⟩
  cases Pool.step_effect p p1 a hstep with
  | silent hrepo hheap hworkers hbuf henq =>
    refine ⟨applied, ?_, ?_⟩
    · rw [hrepo, hheap]
      exact href
    · rw [hworkers, hbuf, henq, List.append_nil]
      exact heq
  | buffered e hrepo hheap hworkers hbuf henq =>
    refine ⟨applied, ?_, ?_⟩
    · rw [hrepo, hheap]
      exact href
    · have hw : p1.inflight = p.inflight := by simp [Pool.inflight, hworkers]
      rw [hw, hbuf, henq, ← List.append_assoc, heq]
  | taken i e hrepo hheap hidle hworkers hbuf henq =>
    refine ⟨applied, ?_, ?_⟩
    · rw [hrepo, hheap]
      exact href
    · obtain ⟨hl, hi⟩ := WorkerState.single p.workers i _ hlen hidle
      have hw0 : p.inflight = [] := by simp [Pool.inflight, hl, WorkerState.inflight]
      have hw1 : p1.inflight = [e] := by
        simp [Pool.inflight, hworkers, hl, hi, WorkerState.inflight]
      rw [hw0, hbuf] at heq
      rw [hw1, henq, ← heq]
      simp
  | handed i e hrepo hheap hidle hworkers hbuf hbuf1 henq =>
    refine ⟨applied, ?_, ?_⟩
    · rw [hrepo, hheap]
      exact href
    · obtain ⟨hl, hi⟩ := WorkerState.single p.workers i _ hlen hidle
      have hw0 : p.inflight = [] := by simp [Pool.inflight, hl, WorkerState.inflight]
      have hw1 : p1.inflight = [e] := by
        simp [Pool.inflight, hworkers, hl, hi, WorkerState.inflight]
      rw [hw0, hbuf] at heq
      rw [hw1, hbuf1, henq, ← heq]
      simp [nonNil]
  | saved i e hproc hheld hworkers hbuf henq =>
    refine ⟨applied ++ [e], ?_, ?_⟩
    · exact InMemoryRepository.reflects_processEvent _ _ _ _ applied e href hproc
    · obtain ⟨hl, hi⟩ := WorkerState.single p.workers i _ hlen hheld
      have hw0 : p.inflight = [e] := by simp [Pool.inflight, hl, WorkerState.inflight]
      have hw1 : p1.inflight = [] := by
        simp [Pool.inflight, hworkers, hl, hi, WorkerState.inflight]
      rw [hw0] at heq
      rw [hw1, hbuf, henq, ← heq]
      simp

theorem Pool.run_invSeq (acts : List Action) (p p1 : Pool) (hist : List Event)
    (hinv : p.InvSeq hist) (hrun : p.run acts = some p1) :
    p1.InvSeq (hist ++ nonNil (enqueued acts)) := by
  induction acts generalizing p hist with
  | nil =>
    simp only [Pool.run, Option.some.injEq] at hrun
    subst hrun
    simpa [enqueued, nonNil] using hinv
  | cons a acts ih =>
    simp only [Pool.run] at hrun
    split at hrun
    · simp at hrun
    · rename_i p2 hstep
      have h2 := ih p2 _ (Pool.step_invSeq p p2 a hist hinv hstep) hrun
      rw [enqueued_cons, nonNil_append, ← List.append_assoc]
      exact h2

theorem Pool.inflight_of_drained (p : Pool) (hd : p.drained) :
    p.inflight = [] ∧ nonNil p.queue.queue.buf = [] := by
  refine ⟨?_, by simp [hd.1, nonNil]⟩
  simp only [Pool.inflight, List.filterMap_eq_nil_iff]
  exact hd.2

/-! ## Worker pool: what a drained pool has stored -/

/-- **C4** One worker (`workerCount = 1`), a new queue of any capacity, an empty store:
along every schedule in which the non-nil events `es` are enqueued in this order, once
the pool is drained `Get(id)` returns, for each id occurring in `es`, no error and the
price, stock and timestamp of the last event of `es` with that id. -/
theorem single_worker_last_event_wins (cap : Nat) (heap0 : Heap) (acts : List Action)
    (es : List Event) (p : Pool)
    (hrun : (NewPool 1 (NewInMemoryQueue cap) NewInMemoryRepository heap0).run acts = some p)
    (henq : enqueued acts = es.map some) (hdrained : p.drained)
    (id : String) (e : Event) (hlast : lastFor es id = some e) :
    ∃ h1 q, p.repo.Get p.heap id = some (h1, q, none) ∧
      Heap.deref h1 q =
        some { ProductID := id, Price := e.Price, Stock := e.Stock,
               UpdatedAt := e.Timestamp } := by
  have hinit : (NewPool 1 (NewInMemoryQueue cap) NewInMemoryRepository heap0).InvSeq [] := by
    refine ⟨le_refl _, by simp [NewPool], [], InMemoryRepository.reflects_new heap0, ?_⟩
    simp [NewPool, NewInMemoryQueue, Pool.inflight, nonNil]
  have hinv := Pool.run_invSeq acts _ p [] hinit hrun
  rw [henq, nonNil_map_some, List.nil_append] at hinv
  obtain ⟨-, -, applied, href, heq⟩ := hinv
  obtain ⟨hw, hb⟩ := Pool.inflight_of_drained p hdrained
  rw [hw, hb, List.append_nil, List.append_nil] at heq
  subst heq
  have hview := href.2 id
  rw [hlast] at hview
  have hid := (lastFor_mem applied id e hlast).2
  have hprod : e.ToProduct = ⟨id, e.Price, e.Stock, e.Timestamp⟩ := by
    simp [Event.ToProduct, hid]
  rw [← hprod]
  exact InMemoryRepository.get_of_view p.repo p.heap id _ hview

/-- Witness of C4: `("p1", 1.0, 1)` then `("p1", 2.0, 2)` through a queue of capacity 2
and one worker; `Get("p1")` returns price 2.0 and stock 2. -/
theorem single_worker_last_event_wins_witness :
    ∃ h1 q,
      ((NewPool 1 (NewInMemoryQueue 2) NewInMemoryRepository []).runD
          [Action.spawn, Action.enqueue (some sampleA), Action.enqueue (some sampleB),
           Action.recv 0, Action.process 0, Action.recv 0, Action.process 0]).repo.Get
        ((NewPool 1 (NewInMemoryQueue 2) NewInMemoryRepository []).runD
          [Action.spawn, Action.enqueue (some sampleA), Action.enqueue (some sampleB),
           Action.recv 0, Action.process 0, Action.recv 0, Action.process 0]).heap
        "p1" = some (h1, q, none) ∧
      Heap.deref h1 q =
        some { ProductID := "p1", Price := ⟨0x4000000000000000⟩, Stock := 2,
               UpdatedAt := ⟨6, 0, none⟩ } :=
  single_worker_last_event_wins 2 []
    [Action.spawn, Action.enqueue (some sampleA), Action.enqueue (some sampleB),
     Action.recv 0, Action.process 0, Action.recv 0, Action.process 0]
    [sampleA, sampleB] _ (by decide) (by decide) (by decide) "p1" sampleB (by decide)

/-- **C5** Any number of workers, a new queue, an empty store: along every schedule in
which the non-nil events `es`, of pairwise distinct product ids, are enqueued (so for
every order in which the workers dequeue and save them), once the pool is drained
`Count()` is the number of events and `Get` of each event's id returns no error and
that event's id, price, stock and timestamp. -/
theorem distinct_ids_all_present (n : Int) (cap : Nat) (heap0 : Heap) (acts : List Action)
    (es : List Event) (p : Pool)
    (hrun : (NewPool n (NewInMemoryQueue cap) NewInMemoryRepository heap0).run acts = some p)
    (henq : enqueued acts = es.map some) (hdist : (es.map Event.ProductID).Nodup)
    (hdrained : p.drained) :
    p.repo.Count = (es.length : Int) ∧
      ∀ e ∈ es, ∃ h1 q, p.repo.Get p.heap e.ProductID = some (h1, q, none) ∧
        Heap.deref h1 q =
          some { ProductID := e.ProductID, Price := e.Price, Stock := e.Stock,
                 UpdatedAt := e.Timestamp } := by
  have hinit : (NewPool n (NewInMemoryQueue cap) NewInMemoryRepository heap0).InvPerm [] := by
    refine ⟨[], InMemoryRepository.reflects_new heap0, ?_⟩
    simp [NewPool, NewInMemoryQueue, Pool.inflight, nonNil]
  have hinv := Pool.run_invPerm acts _ p [] hinit hrun
  rw [henq, nonNil_map_some, List.nil_append] at hinv
  obtain ⟨applied, href, hperm⟩ := hinv
  obtain ⟨hw, hb⟩ := Pool.inflight_of_drained p hdrained
  rw [hw, hb, List.append_nil, List.append_nil] at hperm
  have hnd : (applied.map Event.ProductID).Nodup :=
    (hperm.map Event.ProductID).nodup_iff.mpr hdist
  constructor
  · have hkeys : (GoMap.keys p.repo.products).Perm (applied.map Event.ProductID) :=
      (List.perm_ext_iff_of_nodup href.1.1 hnd).mpr
        (InMemoryRepository.mem_keys_of_reflects p.repo p.heap applied href)
    have hlen := hkeys.length_eq
    simp only [GoMap.keys, List.length_map] at hlen
    simp only [InMemoryRepository.Count]
    rw [hlen, hperm.length_eq]
  · intro e he
    have hmem : e ∈ applied := hperm.mem_iff.mpr he
    have hview := href.2 e.ProductID
    rw [lastFor_of_nodup applied e hmem hnd] at hview
    exact InMemoryRepository.get_of_view p.repo p.heap e.ProductID _ hview

/-- Witness of C5: two workers, `("p1", 1.0, 1)` then `("p2", 3.0, 3)`; worker 2
dequeues second and saves first. -/
theorem distinct_ids_all_present_witness :
    ((NewPool 2 (NewInMemoryQueue 2) NewInMemoryRepository []).runD
        [Action.spawn, Action.spawn, Action.enqueue (some sampleA),
         Action.enqueue (some sampleC), Action.recv 0, Action.recv 1, Action.process 1,
         Action.process 0]).repo.Count = 2 ∧
      ∀ e ∈ [sampleA, sampleC], ∃ h1 q,
        ((NewPool 2 (NewInMemoryQueue 2) NewInMemoryRepository []).runD
          [Action.spawn, Action.spawn, Action.enqueue (some sampleA),
           Action.enqueue (some sampleC), Action.recv 0, Action.recv 1, Action.process 1,
           Action.process 0]).repo.Get
          ((NewPool 2 (NewInMemoryQueue 2) NewInMemoryRepository []).runD
            [Action.spawn, Action.spawn, Action.enqueue (some sampleA),
             Action.enqueue (some sampleC), Action.recv 0, Action.recv 1, Action.process 1,
             Action.process 0]).heap
          e.ProductID = some (h1, q, none) ∧
        Heap.deref h1 q =
          some { ProductID := e.ProductID, Price := e.Price, Stock := e.Stock,
                 UpdatedAt := e.Timestamp } :=
  distinct_ids_all_present 2 2 []
    [Action.spawn, Action.spawn, Action.enqueue (some sampleA),
     Action.enqueue (some sampleC), Action.recv 0, Action.recv 1, Action.process 1,
     Action.process 0]
    [sampleA, sampleC] _ (by decide) (by decide) (by decide) (by decide)

/-- Witness of C9: three workers as in `TestGracefulShutdown`; one holds an event when
`Stop` cancels, saves it, and `Wait` can return once all three have exited. -/
theorem stop_waits_for_workers_witness :
    ((NewPool 3 (NewInMemoryQueue 10) NewInMemoryRepository []).runD
        [Action.spawn, Action.spawn, Action.spawn, Action.enqueue (some sampleA),
         Action.recv 0, Action.cancel, Action.done 1, Action.process 0, Action.done 2,
         Action.done 0]).wg =
      (((NewPool 3 (NewInMemoryQueue 10) NewInMemoryRepository []).runD
        [Action.spawn, Action.spawn, Action.spawn, Action.enqueue (some sampleA),
         Action.recv 0, Action.cancel, Action.done 1, Action.process 0, Action.done 2,
         Action.done 0]).running : Int) ∧
      ∀ p1, ((NewPool 3 (NewInMemoryQueue 10) NewInMemoryRepository []).runD
        [Action.spawn, Action.spawn, Action.spawn, Action.enqueue (some sampleA),
         Action.recv 0, Action.cancel, Action.done 1, Action.process 0, Action.done 2,
         Action.done 0]).step Action.wait = some p1 →
        ((NewPool 3 (NewInMemoryQueue 10) NewInMemoryRepository []).runD
          [Action.spawn, Action.spawn, Action.spawn, Action.enqueue (some sampleA),
           Action.recv 0, Action.cancel, Action.done 1, Action.process 0, Action.done 2,
           Action.done 0]).wg = 0 ∧
          p1.stop = StopPhase.returned ∧ ∀ w ∈ p1.workers, w = WorkerState.exited :=
  stop_waits_for_workers 3 (NewInMemoryQueue 10) NewInMemoryRepository []
    [Action.spawn, Action.spawn, Action.spawn, Action.enqueue (some sampleA),
     Action.recv 0, Action.cancel, Action.done 1, Action.process 0, Action.done 2,
     Action.done 0] _ (by decide)

/-! ## Delete and Count -/

theorem GoMap.find_delete_self (m : GoMap) (k : String) :
    GoMap.find (GoMap.delete m k) k = none := by
  induction m with
  | nil => simp [GoMap.delete, GoMap.find]
  | cons e m ih =>
    obtain ⟨k0, x⟩ := e
    by_cases hk : k0 = k
    · simp [GoMap.delete, hk, ih]
    · simp [GoMap.delete, GoMap.find, hk, ih]

theorem GoMap.find_delete_ne (m : GoMap) (k k2 : String) (hne : k2 ≠ k) :
    GoMap.find (GoMap.delete m k) k2 = GoMap.find m k2 := by
  induction m with
  | nil => simp [GoMap.delete, GoMap.find]
  | cons e m ih =>
    obtain ⟨k0, x⟩ := e
    by_cases hk : k0 = k
    · subst hk
      have hk2 : ¬ k0 = k2 := fun h => hne h.symm
      simp [GoMap.delete, GoMap.find, hk2, ih]
    · by_cases hk2 : k0 = k2
      · subst hk2
        simp [GoMap.delete, GoMap.find, hk]
      · simp [GoMap.delete, GoMap.find, hk, hk2, ih]

theorem GoMap.mem_delete (m : GoMap) (k : String) (kv : String × Ptr)
    (hmem : kv ∈ GoMap.delete m k) : kv ∈ m ∧ kv.1 ≠ k := by
  induction m with
  | nil => simp [GoMap.delete] at hmem
  | cons e m ih =>
    obtain ⟨k0, x⟩ := e
    by_cases hk : k0 = k
    · simp only [GoMap.delete, hk, if_true] at hmem
      exact ⟨List.mem_cons_of_mem _ (ih hmem).1, (ih hmem).2⟩
    · simp only [GoMap.delete, hk, if_false, List.mem_cons] at hmem
      rcases hmem with h1 | h1
      · subst h1
        exact ⟨List.mem_cons_self _ _, hk⟩
      · exact ⟨List.mem_cons_of_mem _ (ih h1).1, (ih h1).2⟩

theorem GoMap.nodup_keys_delete (m : GoMap) (k : String) (hnd : (GoMap.keys m).Nodup) :
    (GoMap.keys (GoMap.delete m k)).Nodup := by
  induction m with
  | nil => simp [GoMap.delete, GoMap.keys]
  | cons e m ih =>
    obtain ⟨k0, x⟩ := e
    have hcons : k0 ∉ GoMap.keys m ∧ (GoMap.keys m).Nodup := by
      simpa [GoMap.keys] using hnd
    by_cases hk : k0 = k
    · simpa [GoMap.delete, hk] using ih hcons.2
    · have hnot : k0 ∉ GoMap.keys (GoMap.delete m k) := by
        intro hin
        obtain ⟨kv, hkv, hfst⟩ := List.mem_map.mp hin
        exact hcons.1 (List.mem_map.mpr ⟨kv, (GoMap.mem_delete m k kv hkv).1, hfst⟩)
      have hrec := ih hcons.2
      simp only [GoMap.keys] at hnot hrec
      simp [GoMap.delete, GoMap.keys, hk, hnot, hrec]

theorem GoMap.length_set (m : GoMap) (k : String) (v : Ptr) :
    (GoMap.set m k v).length = if k ∈ GoMap.keys m then m.length else m.length + 1 := by
  induction m with
  | nil => simp [GoMap.set, GoMap.keys]
  | cons e m ih =>
    obtain ⟨k0, x⟩ := e
    by_cases hk : k0 = k
    · simp [GoMap.set, GoMap.keys, hk]
    · have hk2 : ¬ k = k0 := fun h => hk h.symm
      simp only [GoMap.keys] at ih
      simp only [GoMap.set, hk, if_false, List.length_cons, ih, GoMap.keys, List.map_cons,
        List.mem_cons, hk2, false_or]
      split <;> rfl

theorem GoMap.length_delete_not_mem (m : GoMap) (k : String) (hnot : k ∉ GoMap.keys m) :
    (GoMap.delete m k).length = m.length := by
  induction m with
  | nil => simp [GoMap.delete]
  | cons e m ih =>
    obtain ⟨k0, x⟩ := e
    have hsplit : ¬ k = k0 ∧ k ∉ GoMap.keys m := by
      simpa [GoMap.keys] using hnot
    have hk : ¬ k0 = k := fun h => hsplit.1 h.symm
    simp [GoMap.delete, hk, ih hsplit.2]

theorem GoMap.length_delete_mem (m : GoMap) (k : String) (hnd : (GoMap.keys m).Nodup)
    (hin : k ∈ GoMap.keys m) : (GoMap.delete m k).length + 1 = m.length := by
  induction m with
  | nil => simp [GoMap.keys] at hin
  | cons e m ih =>
    obtain ⟨k0, x⟩ := e
    have hcons : k0 ∉ GoMap.keys m ∧ (GoMap.keys m).Nodup := by
      simpa [GoMap.keys] using hnd
    by_cases hk : k0 = k
    · subst hk
      simp [GoMap.delete, GoMap.length_delete_not_mem m k0 hcons.1]
    · have hin2 : k ∈ GoMap.keys m := by
        have : k = k0 ∨ k ∈ GoMap.keys m := by simpa [GoMap.keys] using hin
        exact this.resolve_left (fun h => hk h.symm)
      simp [GoMap.delete, hk, ih hcons.2 hin2]

theorem InMemoryRepository.wf_delete (r : InMemoryRepository) (h : Heap) (id : String)
    (hwf : r.WF h) : (r.Delete id).1.WF h := by
  refine ⟨GoMap.nodup_keys_delete _ _ hwf.1, fun kv hkv => ?_⟩
  exact hwf.2 kv (GoMap.mem_delete _ _ kv hkv).1

/-- **C12** For every store state and every id, `Delete(id)` returns no error, stored
or not; afterwards `Get(id)` returns not-found with a nil product, and `Get` of every
other id returns what it returned before the `Delete`. -/
theorem delete_frame (r : InMemoryRepository) (h : Heap) (id : String) :
    (r.Delete id).2 = none ∧
      (r.Delete id).1.Get h id = some (h, none, some GoError.ErrProductNotFound) ∧
      ∀ id2, id2 ≠ id → (r.Delete id).1.Get h id2 = r.Get h id2 := by
  refine ⟨rfl, ?_, fun id2 hne => ?_⟩
  · simp [InMemoryRepository.Delete, InMemoryRepository.Get, GoMap.find_delete_self]
  · simp [InMemoryRepository.Delete, InMemoryRepository.Get, GoMap.find_delete_ne _ _ _ hne]

/-- Witness of C12: a store holding `"p1"` and `"p2"`; `"p1"` is deleted. -/
theorem delete_frame_witness :
    (InMemoryRepository.Delete { products := [("p1", some 0), ("p2", some 1)] } "p1").2 =
        none ∧
      (InMemoryRepository.Delete { products := [("p1", some 0), ("p2", some 1)] } "p1").1.Get
          [sampleA.ToProduct, sampleC.ToProduct] "p1" =
        some ([sampleA.ToProduct, sampleC.ToProduct], none,
          some GoError.ErrProductNotFound) ∧
      (InMemoryRepository.Delete { products := [("p1", some 0), ("p2", some 1)] } "p1").1.Get
          [sampleA.ToProduct, sampleC.ToProduct] "p2" =
        InMemoryRepository.Get { products := [("p1", some 0), ("p2", some 1)] }
          [sampleA.ToProduct, sampleC.ToProduct] "p2" :=
  ⟨(delete_frame { products := [("p1", some 0), ("p2", some 1)] }
      [sampleA.ToProduct, sampleC.ToProduct] "p1").1,
    (delete_frame { products := [("p1", some 0), ("p2", some 1)] }
      [sampleA.ToProduct, sampleC.ToProduct] "p1").2.1,
    (delete_frame { products := [("p1", some 0), ("p2", some 1)] }
      [sampleA.ToProduct, sampleC.ToProduct] "p1").2.2 "p2" (by decide)⟩

/-- **C13** A new store is well formed and has `Count() = 0`. In a well-formed store
no id is stored twice and `Count()` is the number of distinct stored ids; `Save` keeps
the store well formed, leaves `Count()` unchanged when the product's id is already
stored and adds exactly one when it is new; `Delete` keeps the store well formed and
takes exactly one off `Count()` when the id was stored, none otherwise. -/
theorem count_distinct_ids (r : InMemoryRepository) (h : Heap) (product : Ptr)
    (p : Product) (id : String) (hwf : r.WF h) (hp : Heap.deref h product = some p) :
    (NewInMemoryRepository.WF h ∧ NewInMemoryRepository.Count = 0) ∧
      (∀ k, (GoMap.keys r.products).count k ≤ 1) ∧
      r.Count = ((GoMap.keys r.products).toFinset.card : Int) ∧
      (∃ r1, r.Save h product = some (r1, none) ∧ r1.WF h ∧
        (p.ProductID ∈ GoMap.keys r.products → r1.Count = r.Count) ∧
        (p.ProductID ∉ GoMap.keys r.products → r1.Count = r.Count + 1)) ∧
      (r.Delete id).1.WF h ∧
      (id ∈ GoMap.keys r.products → (r.Delete id).1.Count = r.Count - 1) ∧
      (id ∉ GoMap.keys r.products → (r.Delete id).1.Count = r.Count) := by
  refine ⟨⟨InMemoryRepository.wf_new h, rfl⟩, ?_, ?_, ?_, ?_, ?_, ?_⟩
  · intro k
    exact List.nodup_iff_count_le_one.mp hwf.1 k
  · rw [List.toFinset_card_of_nodup hwf.1]
    simp [InMemoryRepository.Count, GoMap.keys]
  · have hsave : r.Save h product =
        some ({ products := GoMap.set r.products p.ProductID product }, none) := by
      simp [InMemoryRepository.Save, hp]
    refine ⟨_, hsave, InMemoryRepository.wf_save r _ h product none hwf hsave, ?_, ?_⟩
    · intro hin
      simp [InMemoryRepository.Count, GoMap.length_set, hin]
    · intro hnot
      simp [InMemoryRepository.Count, GoMap.length_set, hnot]
  · exact InMemoryRepository.wf_delete r h id hwf
  · intro hin
    have hlen := GoMap.length_delete_mem r.products id hwf.1 hin
    simp only [InMemoryRepository.Count, InMemoryRepository.Delete]
    omega
  · intro hnot
    simp [InMemoryRepository.Count, InMemoryRepository.Delete,
      GoMap.length_delete_not_mem r.products id hnot]

/-- Witness of C13: a store holding `"p1"` and `"p2"`; a product of id `"p1"` is saved
again, and `"p1"` is deleted. -/
theorem count_distinct_ids_witness :
    (∃ r1, InMemoryRepository.Save { products := [("p1", some 0), ("p2", some 1)] }
          [sampleA.ToProduct, sampleC.ToProduct, sampleB.ToProduct] (some 2) =
          some (r1, none) ∧
        r1.WF [sampleA.ToProduct, sampleC.ToProduct, sampleB.ToProduct] ∧
        (sampleB.ToProduct.ProductID ∈ GoMap.keys [("p1", some 0), ("p2", some 1)] →
          r1.Count =
            InMemoryRepository.Count { products := [("p1", some 0), ("p2", some 1)] }) ∧
        (sampleB.ToProduct.ProductID ∉ GoMap.keys [("p1", some 0), ("p2", some 1)] →
          r1.Count =
            InMemoryRepository.Count { products := [("p1", some 0), ("p2", some 1)] } + 1)) ∧
      (InMemoryRepository.Delete { products := [("p1", some 0), ("p2", some 1)] } "p1").1.Count
        = InMemoryRepository.Count { products := [("p1", some 0), ("p2", some 1)] } - 1 :=
  ⟨(count_distinct_ids { products := [("p1", some 0), ("p2", some 1)] }
      [sampleA.ToProduct, sampleC.ToProduct, sampleB.ToProduct] (some 2) sampleB.ToProduct
      "p1" (by decide) (by decide)).2.2.2.1,
    (count_distinct_ids { products := [("p1", some 0), ("p2", some 1)] }
      [sampleA.ToProduct, sampleC.ToProduct, sampleB.ToProduct] (some 2) sampleB.ToProduct
      "p1" (by decide) (by decide)).2.2.2.2.2.1 (by decide)⟩

/-! ## Enqueue on a full queue -/

theorem Waiting.dequeue_full (buf : List (Option Event)) (cap : Nat) (head sent : Option Event)
    (tail rest : List (Option Event)) (hbuf : buf = head :: tail) (hfull : buf.length = cap) :
    Waiting.Dequeue
        { queue := { queue := { buf := buf, cap := cap, closed := false } },
          senders := sent :: rest } =
      ({ queue := { queue := { buf := tail ++ [sent], cap := cap, closed := false } },
         senders := rest },
        Outcome.returned (head, none), [(sent, Outcome.returned none)]) := by
  subst hbuf
  have hlt : tail.length < cap := by
    simp only [List.length_cons] at hfull
    omega
  simp [Waiting.Dequeue, InMemoryQueue.Dequeue, Chan.recv, InMemoryQueue.Enqueue,
    Chan.send, hlt]

/-- On a full open queue of capacity at least 1, `n` calls of `Dequeue` with at least
`n` producers blocked return the `n` oldest buffered or pending events, end the `n`
oldest blocked calls with a nil error, and leave the buffer full. -/
theorem Waiting.dequeueN_full (n cap : Nat) (buf senders : List (Option Event))
    (hcap : 1 ≤ cap) (hfull : buf.length = cap) (hn : n ≤ senders.length) :
    Waiting.dequeueN
        { queue := { queue := { buf := buf, cap := cap, closed := false } },
          senders := senders } n =
      Outcome.returned
        ({ queue := { queue := { buf := ((buf ++ senders).drop n).take cap, cap := cap,
                                 closed := false } },
           senders := senders.drop n },
          (buf ++ senders).take n,
          (senders.take n).map (fun s => (s, Outcome.returned none))) := by
  induction n generalizing buf senders with
  | zero =>
    simp only [Waiting.dequeueN, List.drop_zero, List.take_zero, List.map_nil]
    rw [← hfull, List.take_left']
    rfl
  | succ n ih =>
    cases buf with
    | nil =>
      simp only [List.length_nil] at hfull
      omega
    | cons head tail =>
      cases senders with
      | nil => simp at hn
      | cons sent rest =>
        have hlen : (tail ++ [sent]).length = cap := by
          simp only [List.length_cons] at hfull
          simp only [List.length_append, List.length_cons, List.length_nil]
          omega
        have hn2 : n ≤ rest.length := by
          simp only [List.length_cons] at hn
          omega
        have hrec := ih (tail ++ [sent]) rest hlen hn2
        simp only [Waiting.dequeueN]
        rw [Waiting.dequeue_full (head :: tail) cap head sent tail rest rfl hfull]
        simp only [hrec]
        simp

/-- **C11** (as stated, at three inputs) The claim fails (a) on a queue of capacity 0:
`Enqueue` blocks and the next `Dequeue` ends it with a nil error, but it takes the
event itself and the buffer stays empty, so the event is not at its tail; (b) on a
full open queue of capacity 1 with another producer already blocked: one `Dequeue`
ends only the older call, the new one is still blocked and the event at the tail is
the older producer's; (c) on a full closed queue of capacity 1: `Enqueue` panics, and
it panics again after an event has been dequeued. -/
theorem enqueue_full_queue_failing_inputs :
    (Waiting.Enqueue { queue := NewInMemoryQueue 0, senders := [] } (some sampleA) =
        ({ queue := NewInMemoryQueue 0, senders := [some sampleA] }, Outcome.blocked) ∧
      Waiting.Dequeue { queue := NewInMemoryQueue 0, senders := [some sampleA] } =
        ({ queue := NewInMemoryQueue 0, senders := [] },
          Outcome.returned (some sampleA, none),
          [(some sampleA, Outcome.returned none)]) ∧
      (NewInMemoryQueue 0).queue.buf.getLast? ≠ some (some sampleA)) ∧
    (Waiting.Enqueue
          { queue := { queue := { buf := [some sampleA], cap := 1, closed := false } },
            senders := [some sampleB] } (some sampleC) =
        ({ queue := { queue := { buf := [some sampleA], cap := 1, closed := false } },
           senders := [some sampleB, some sampleC] }, Outcome.blocked) ∧
      Waiting.Dequeue
          { queue := { queue := { buf := [some sampleA], cap := 1, closed := false } },
            senders := [some sampleB, some sampleC] } =
        ({ queue := { queue := { buf := [some sampleB], cap := 1, closed := false } },
           senders := [some sampleC] },
          Outcome.returned (some sampleA, none),
          [(some sampleB, Outcome.returned none)])) ∧
    (Waiting.Enqueue
          { queue := { queue := { buf := [some sampleA], cap := 1, closed := true } },
            senders := [] } (some sampleC) =
        ({ queue := { queue := { buf := [some sampleA], cap := 1, closed := true } },
           senders := [] }, Outcome.panicked) ∧
      Waiting.Dequeue
          { queue := { queue := { buf := [some sampleA], cap := 1, closed := true } },
            senders := [] } =
        ({ queue := { queue := { buf := [], cap := 1, closed := true } }, senders := [] },
          Outcome.returned (some sampleA, none), []) ∧
      Waiting.Enqueue
          { queue := { queue := { buf := [], cap := 1, closed := true } }, senders := [] }
          (some sampleC) =
        ({ queue := { queue := { buf := [], cap := 1, closed := true } }, senders := [] },
          Outcome.panicked)) := by
  refine ⟨⟨?_, ?_, ?_⟩, ⟨?_, ?_⟩, ⟨?_, ?_, ?_⟩⟩ <;> decide

/-- **C11** (amended) For every open queue of capacity `c ≥ 1` holding `c` events, with
any producers `senders` already blocked in `Enqueue`: `Enqueue(event)` does not return,
the producer joins the blocked ones with its event, no error is returned and the
buffer is unchanged. Each `Dequeue` ends the oldest blocked call with a nil error and
leaves `c` events buffered: after `n ≤ |senders|` calls of `Dequeue` the new call is
still blocked, and call number `|senders| + 1` (the first one when no other producer
is blocked) ends it with a nil error and its event at the tail of the buffer. -/
theorem enqueue_blocks_when_full (q : InMemoryQueue) (senders : List (Option Event))
    (event : Option Event) (hopen : q.queue.closed = false) (hcap : 1 ≤ q.queue.cap)
    (hfull : q.queue.buf.length = q.queue.cap) :
    Waiting.Enqueue { queue := q, senders := senders } event =
        ({ queue := q, senders := senders ++ [event] }, Outcome.blocked) ∧
      (∀ n, n ≤ senders.length →
        ∃ w events,
          Waiting.dequeueN { queue := q, senders := senders ++ [event] } n =
            Outcome.returned (w, events,
              (senders.take n).map (fun s => (s, Outcome.returned none))) ∧
          w.senders = senders.drop n ++ [event] ∧
          w.queue.queue.buf.length = q.queue.cap) ∧
      ∃ w events,
        Waiting.dequeueN { queue := q, senders := senders ++ [event] }
            (senders.length + 1) =
          Outcome.returned (w, events,
            (senders ++ [event]).map (fun s => (s, Outcome.returned none))) ∧
        w.senders = [] ∧
        w.queue.queue.buf = (q.queue.buf ++ senders).drop (senders.length + 1) ++ [event] ∧
        w.queue.queue.buf.getLast? = some event ∧
        w.queue.queue.buf.length = q.queue.cap ∧
        events = (q.queue.buf ++ senders).take (senders.length + 1) := by
  obtain ⟨⟨buf, cap, closed⟩⟩ := q
  simp only at hopen hcap hfull
  subst hopen
  refine ⟨?_, ?_, ?_⟩
  · have hnot : ¬ buf.length < cap := by omega
    simp [Waiting.Enqueue, InMemoryQueue.Enqueue, Chan.send, hnot]
  · intro n hn
    have hn2 : n ≤ (senders ++ [event]).length := by
      simp only [List.length_append, List.length_cons, List.length_nil]
      omega
    have hstep := Waiting.dequeueN_full n cap buf (senders ++ [event]) hcap hfull hn2
    rw [List.take_append_of_le_length hn] at hstep
    refine ⟨_, _, hstep, List.drop_append_of_le_length hn, ?_⟩
    simp only [List.length_take, List.length_drop, List.length_append, List.length_cons,
      List.length_nil]
    omega
  · have hlen : (senders ++ [event]).length = senders.length + 1 := by simp
    have hle : senders.length + 1 ≤ (buf ++ senders).length := by
      simp only [List.length_append]
      omega
    have hdrop : (buf ++ (senders ++ [event])).drop (senders.length + 1) =
        (buf ++ senders).drop (senders.length + 1) ++ [event] := by
      rw [← List.append_assoc]
      exact List.drop_append_of_le_length hle
    have hdl : ((buf ++ senders).drop (senders.length + 1) ++ [event]).length = cap := by
      simp only [List.length_append, List.length_drop, List.length_cons, List.length_nil]
      omega
    have hstep := Waiting.dequeueN_full (senders.length + 1) cap buf (senders ++ [event])
      hcap hfull (by rw [hlen])
    rw [hdrop, List.take_of_length_le (le_of_eq hdl), ← hlen, List.take_length,
      List.drop_length, hlen] at hstep
    refine ⟨_, _, hstep, rfl, rfl, ?_, hdl, ?_⟩
    · simp
    · rw [← List.append_assoc]
      exact List.take_append_of_le_length hle

/-- Witness of C11: a full queue of capacity 1 with one producer already blocked. -/
theorem enqueue_blocks_when_full_witness :
    (∃ w events,
      Waiting.dequeueN
          { queue := { queue := { buf := [some sampleA], cap := 1, closed := false } },
            senders := [some sampleB] ++ [some sampleC] } 1 =
        Outcome.returned (w, events,
          ([some sampleB].take 1).map (fun s => (s, Outcome.returned none))) ∧
      w.senders = [some sampleB].drop 1 ++ [some sampleC] ∧
      w.queue.queue.buf.length = 1) ∧
    ∃ w events,
      Waiting.dequeueN
          { queue := { queue := { buf := [some sampleA], cap := 1, closed := false } },
            senders := [some sampleB] ++ [some sampleC] } 2 =
        Outcome.returned (w, events,
          ([some sampleB] ++ [some sampleC]).map (fun s => (s, Outcome.returned none))) ∧
      w.senders = [] ∧
      w.queue.queue.buf = ([some sampleA] ++ [some sampleB]).drop 2 ++ [some sampleC] ∧
      w.queue.queue.buf.getLast? = some (some sampleC) ∧
      w.queue.queue.buf.length = 1 ∧
      events = ([some sampleA] ++ [some sampleB]).take 2 :=
  ⟨(enqueue_blocks_when_full
      { queue := { buf := [some sampleA], cap := 1, closed := false } } [some sampleB]
      (some sampleC) (by decide) (by decide) (by decide)).2.1 1 (by decide),
    (enqueue_blocks_when_full
      { queue := { buf := [some sampleA], cap := 1, closed := false } } [some sampleB]
      (some sampleC) (by decide) (by decide) (by decide)).2.2⟩

/-! ## Handler on a closed queue -/

/-- **C3** (as stated, on a closed queue) The queue of the handler tests, closed and
empty, has free space; the valid request of `TestCreateEvent_Success` is not answered
with 202 and nothing is enqueued: the send on the closed channel panics. -/
theorem createEvent_closed_queue_panics :
    ([] : List (Option Event)).length < 10 ∧
      ¬ (("test123" : String) = "" ∨ Float64.ltZero ⟨0x4048FEB851EB851F⟩ = true ∨
          (100 : Int) < 0) ∧
      CreateEvent { queue := { buf := [], cap := 10, closed := true } } ⟨9, 0, none⟩
          (some ⟨"test123", ⟨0x4048FEB851EB851F⟩, 100⟩) = Outcome.panicked := by
  refine ⟨?_, ?_, ?_⟩ <;> decide

end Vfc
